import Mathlib

/-! Console shim of litex (`litex/soc/software/libbase/console.c`)

A shallow embedding of the number formatters `ui2a` / `i2a` and of the
byte-oriented console operations, followed by the properties proved about them.

Conventions of the embedding

* `unsigned int` is a `Nat` below `2^32`; arithmetic that can wrap is reduced
  modulo `2^32` explicitly.  `int` is an `Int`, converted with `toInt32` / `toU32`.
* A `char` is represented by its byte value `0..255`; a store of an `int` into a
  `char` keeps the value modulo `256`.
* The output buffer `bf` is represented by the list of bytes stored through the
  pointer, in the order of the stores (the pointer only ever moves forward by one
  after each store).
* Loops that the source does not bound carry a fuel argument: one unit per
  evaluation of the loop condition.
-/

namespace Console

/-- Ways in which an execution can fail to produce a result. -/
inductive Fault where
  | divByZero
  | outOfFuel
  | nullCall
  | outOfBounds
  deriving DecidableEq, Repr

/-- Conversion of an `unsigned int` value to `int` (two's complement). -/
def toInt32 (x : Nat) : Int :=
  if x % 4294967296 < 2147483648 then ((x % 4294967296 : Nat) : Int)
  else ((x % 4294967296 : Nat) : Int) - 4294967296

/-- Conversion of an `int` value to `unsigned int`. -/
def toU32 (x : Int) : Nat := (x % 4294967296).toNat

/-- Result of an `int` computation kept in 32 bits (two's complement wrap). -/
def wrapInt32 (x : Int) : Int := toInt32 (toU32 x)

/-- Store of an `int` into a `char`: the byte kept. -/
def toChar (x : Int) : Nat := (x % 256).toNat

/-- The expression `dgt+(dgt<10 ? '0' : (uc ? 'A' : 'a')-10)` of `ui2a`, as the byte stored:
the sum is taken in `Int` and reduced modulo 256 by the store, which is also what a sum
wrapped to 32 bits first would leave. -/
def digitChar (dgt : Int) (uc : Int) : Nat :=
  toChar (dgt + (if dgt < 10 then 48 else (if uc ≠ 0 then 65 else 97) - 10))

/-- First loop of `ui2a`: `while (num/d >= base) d*=base;`, the product kept in 32 bits;
a division by a zero `d` is a fault. -/
def ui2a_scale : Nat → Nat → Nat → Nat → Except Fault Nat
  | 0, _, _, _ => .error .outOfFuel
  | fuel + 1, num, base, d =>
    if d = 0 then .error .divByZero
    else if num / d ≥ base then ui2a_scale fuel num base (d * base % 4294967296)
    else .ok d

/-- Second loop of `ui2a`: `while (d!=0) { ... }`.  `n` counts the digits stored so far
(only ever compared with zero) and `bf` holds them; `dgt` is the `int` the quotient
converts to; a division by a zero `base` is a fault. -/
def ui2a_emit : Nat → Nat → Nat → Int → Nat → Nat → List Nat → Except Fault (List Nat)
  | 0, _, _, _, _, _, _ => .error .outOfFuel
  | fuel + 1, num, base, uc, d, n, bf =>
    if d = 0 then .ok bf
    else
      let dgt : Int := toInt32 (num / d)
      let num1 := num % d
      if base = 0 then .error .divByZero
      else
        let d1 := d / base
        if n ≠ 0 ∨ dgt > 0 ∨ d1 = 0 then
          ui2a_emit fuel num1 base uc d1 (n + 1) (bf ++ [digitChar dgt uc])
        else
          ui2a_emit fuel num1 base uc d1 n bf

/-- The function `ui2a(num, base, uc, bf)`: the bytes stored through `bf`, the final NUL included. -/
def ui2a (fuel : Nat) (num base : Nat) (uc : Int) : Except Fault (List Nat) :=
  match ui2a_scale fuel num base 1 with
  | .error e => .error e
  | .ok d =>
    match ui2a_emit fuel num base uc d 0 [] with
    | .error e => .error e
    | .ok bf => .ok (bf ++ [0])

/-- The function `i2a(num, base, bf)`: the bytes stored through `bf`.  The negation is kept
in 32 bits, and `num` and `base` convert to `unsigned int` in the call of `ui2a`. -/
def i2a (fuel : Nat) (num base : Int) : Except Fault (List Nat) :=
  if num < 0 then
    match ui2a fuel (toU32 (wrapInt32 (-num))) (toU32 base) 0 with
    | .error e => .error e
    | .ok bf => .ok (45 :: bf)
  else ui2a fuel (toU32 num) (toU32 base) 0

/-- The text a reader of a C string sees: the bytes before the first NUL. -/
def cstr (buf : List Nat) : List Nat := buf.takeWhile (fun ch => ch ≠ 0)

/-- Digits of `num` at the places `base^k, …, base^0`, most significant first: the
quotients `num / d` the second loop of `ui2a` computes while `d` runs down from `base^k`. -/
def places (base : Nat) : Nat → Nat → List Nat
  | 0, num => [num]
  | k + 1, num => num / base ^ (k + 1) :: places base k (num % base ^ (k + 1))

/-- Numeral side of the round trip, following the claim's words: the value of one
character of a numeral, `0-9`, then `a-z` or `A-Z` for the values ten and up. -/
def digitValue (ch : Nat) : Option Nat :=
  if 48 ≤ ch ∧ ch ≤ 57 then some (ch - 48)
  else if 97 ≤ ch ∧ ch ≤ 122 then some (ch - 97 + 10)
  else if 65 ≤ ch ∧ ch ≤ 90 then some (ch - 65 + 10)
  else none

/-- Numeral side of the round trip: reads the characters left to right onto the value
`acc` read so far; a character that is no digit of base `b` makes the reading fail. -/
def parseFrom (b : Nat) : Nat → List Nat → Option Nat
  | acc, [] => some acc
  | acc, ch :: rest =>
    match digitValue ch with
    | some v => if v < b then parseFrom b (acc * b + v) rest else none
    | none => none

/-- Numeral side of the round trip: the value of a non-empty base-`b` numeral. -/
def parseNumeral (b : Nat) (s : List Nat) : Option Nat :=
  match s with
  | [] => none
  | ch :: rest => parseFrom b 0 (ch :: rest)

/-- The letter `A-Z` matching a letter `a-z`; every other byte is left as it is. -/
def upperOf (ch : Nat) : Nat := if 97 ≤ ch ∧ ch ≤ 122 then ch - 32 else ch

/-! ## The console state and its environment

The three `static` hook pointers are kept as addresses (`0` is `NULL`).  Every call the
console makes into its environment (the UART driver, the code behind a hook pointer) is
recorded in a trace, oldest call first, with the argument passed or the result returned.
What the environment answers may depend on everything that happened before, so an answer
is a function of the trace at the moment of the call.  The environment does not call back
into the console: the hook variables change through the two setters only. -/

/-- One call from the console into its environment.  A hook event carries the address
through which the call was made. -/
inductive Event where
  | uart_write (c : Nat)
  | uart_read_nonblock (r : Bool)
  | uart_read (c : Nat)
  | write_hook (h : Nat) (c : Nat)
  | read_nonblock_hook (h : Nat) (r : Bool)
  | read_hook (h : Nat) (c : Nat)
  deriving DecidableEq, Repr

/-- Modelled from the spec: the UART driver of `uart.h` and the functions the hook pointers
point to are not part of `console.c`.  Following the external interfaces of the spec,
`uart_read_nonblock` and the read-nonblock hook answer with a boolean, `uart_read` and the
read hook with a byte, `uart_write` and the write hook take a byte and answer nothing.  Each
answer is given for the trace of calls made so far; a hook is addressed by its pointer. -/
structure Env where
  uart_read_nonblock : List Event → Bool
  uart_read : List Event → Nat
  read_nonblock_hook : Nat → List Event → Bool
  read_hook : Nat → List Event → Nat

/-- The `static` variables `write_hook`, `read_hook`, `read_nonblock_hook` of `console.c`
and the trace of calls made into the environment. -/
structure State where
  write_hook : Nat
  read_hook : Nat
  read_nonblock_hook : Nat
  trace : List Event
  deriving DecidableEq, Repr

/-- The state at start-up: statics are zero-initialised, nothing has been called. -/
def State.init : State := ⟨0, 0, 0, []⟩

/-- Records one call at the end of the trace. -/
def State.log (st : State) (e : Event) : State :=
  ⟨st.write_hook, st.read_hook, st.read_nonblock_hook, st.trace ++ [e]⟩

/-- The function `console_set_write_hook(h)`. -/
def console_set_write_hook (h : Nat) (st : State) : State :=
  ⟨h, st.read_hook, st.read_nonblock_hook, st.trace⟩

/-- The function `console_set_read_hook(r, rn)`. -/
def console_set_read_hook (r rn : Nat) (st : State) : State :=
  ⟨st.write_hook, r, rn, st.trace⟩

/-- The function `putchar(c)`: `uart_write(c)`, then the write hook when it is not `NULL`;
the `int` argument reaches both as a `char`.  Returns `c`. -/
def putchar (c : Int) (st : State) : Int × State :=
  let st1 := st.log (.uart_write (toChar c))
  if st1.write_hook ≠ 0 then
    (c, st1.log (.write_hook st1.write_hook (toChar c)))
  else
    (c, st1)

/-- The function `readchar()`: the polling loop, one unit of fuel per iteration.  A call
through a `NULL` read hook is a fault. -/
def readchar (env : Env) : Nat → State → Except Fault (Nat × State)
  | 0, _ => .error .outOfFuel
  | fuel + 1, st =>
    let a := env.uart_read_nonblock st.trace
    let st1 := st.log (.uart_read_nonblock a)
    if a then
      let c := env.uart_read st1.trace
      .ok (c, st1.log (.uart_read c))
    else if st1.read_nonblock_hook ≠ 0 then
      let b := env.read_nonblock_hook st1.read_nonblock_hook st1.trace
      let st2 := st1.log (.read_nonblock_hook st1.read_nonblock_hook b)
      if b then
        if st2.read_hook = 0 then .error .nullCall
        else
          let c := env.read_hook st2.read_hook st2.trace
          .ok (c, st2.log (.read_hook st2.read_hook c))
      else readchar env fuel st2
    else readchar env fuel st1

/-- The function `readchar_nonblock()`: the short-circuit `||` and `&&` of the source;
the `int` returned is `1` or `0`. -/
def readchar_nonblock (env : Env) (st : State) : Int × State :=
  let a := env.uart_read_nonblock st.trace
  let st1 := st.log (.uart_read_nonblock a)
  if a then (1, st1)
  else if st1.read_nonblock_hook ≠ 0 then
    let b := env.read_nonblock_hook st1.read_nonblock_hook st1.trace
    let st2 := st1.log (.read_nonblock_hook st1.read_nonblock_hook b)
    if b then (1, st2) else (0, st2)
  else (0, st1)

/-- The function `puts(s)`; `s` is the memory from the pointer on, byte by byte.  Reading
past the end of the memory given is a fault.  The `char` read is passed to `putchar` as the
`int` of its byte value (where `char` is signed that `int` is 256 less for the bytes from
128 on, and `putchar` hands the same byte on). -/
def puts : List Nat → State → Except Fault (Int × State)
  | [], _ => .error .outOfBounds
  | ch :: s, st =>
    if ch ≠ 0 then puts s (putchar (ch : Int) st).2
    else .ok (1, (putchar 10 st).2)

/-- The function `putsnonl(s)`; `s` is the memory from the pointer on, byte by byte. -/
def putsnonl : List Nat → State → Except Fault State
  | [], _ => .error .outOfBounds
  | ch :: s, st =>
    if ch ≠ 0 then putsnonl s (putchar (ch : Int) st).2
    else .ok st

/-- The function `vprintf(fmt, args)`: returns at its first statement. -/
def vprintf (_fmt : List Nat) (_args : List Int) (st : State) : Int × State := (0, st)

/-- The function `printf(fmt, ...)`: returns at its first statement. -/
def printf (_fmt : List Nat) (_args : List Int) (st : State) : Int × State := (0, st)

/-- The bytes passed to `uart_write` in a trace, in order. -/
def uart_tx : List Event → List Nat
  | [] => []
  | .uart_write c :: tr => c :: uart_tx tr
  | _ :: tr => uart_tx tr

/-- The calls one `putchar` of the byte `c` makes when the write hook holds `h`. -/
def putchar_events (h : Nat) (c : Nat) : List Event :=
  if h ≠ 0 then [.uart_write c, .write_hook h c] else [.uart_write c]

/-- A run of `putchar` calls, one per element, results discarded. -/
def putchars : List Int → State → State
  | [], st => st
  | c :: cs, st => putchars cs (putchar c st).2

/-- An environment whose UART never has a byte and whose read-nonblock hooks always
report data. -/
def hookOnlyEnv : Env :=
  ⟨fun _ => false, fun _ => 0, fun _ _ => true, fun _ _ => 0⟩

/-- A state with the read-nonblock hook registered at address 4096 and no read hook. -/
def nonblockOnlyState : State := console_set_read_hook 0 4096 State.init

/-- The calls a run of `putchar` over the bytes `cs` makes when the write hook holds `h`. -/
def put_events (h : Nat) : List Nat → List Event
  | [] => []
  | c :: cs => putchar_events h c ++ put_events h cs

/-- One pass through the body of the loop of `readchar` (the two `if` statements): the
state reached and, when the pass leaves the loop, the byte returned or the fault of a call
through a `NULL` read hook; `none` when the loop goes round again. -/
def readchar_iter (env : Env) (st : State) : State × Option (Except Fault Nat) :=
  let a := env.uart_read_nonblock st.trace
  let st1 := st.log (.uart_read_nonblock a)
  if a then
    let c := env.uart_read st1.trace
    (st1.log (.uart_read c), some (.ok c))
  else if st1.read_nonblock_hook ≠ 0 then
    let b := env.read_nonblock_hook st1.read_nonblock_hook st1.trace
    let st2 := st1.log (.read_nonblock_hook st1.read_nonblock_hook b)
    if b then
      if st2.read_hook = 0 then (st2, some (.error .nullCall))
      else
        let c := env.read_hook st2.read_hook st2.trace
        (st2.log (.read_hook st2.read_hook c), some (.ok c))
    else (st2, none)
  else (st1, none)

/-- The loop of `readchar` followed for at most `fuel` passes, with the state reached kept
in every case: also when the fuel runs out (the loop is still polling) and on the fault. -/
def readchar_run (env : Env) : Nat → State → State × Except Fault Nat
  | 0, st => (st, .error .outOfFuel)
  | fuel + 1, st =>
    match readchar_iter env st with
    | (st1, none) => readchar_run env fuel st1
    | (st1, some r) => (st1, r)

/-- Whether an event is a call of one of the two fallback hooks. -/
def isFallbackCall : Event → Bool
  | .read_nonblock_hook _ _ => true
  | .read_hook _ _ => true
  | _ => false

/-- Whether the event `e`, coming right after `prev`, respects the pairing of the read
hooks: a call of the read hook must come right after a call through a non-`NULL`
read-nonblock hook that answered true. -/
def okAfter (prev : Option Event) (e : Event) : Bool :=
  match e with
  | .read_hook _ _ =>
    match prev with
    | some (.read_nonblock_hook h true) => decide (h ≠ 0)
    | _ => false
  | _ => true

/-- Whether every read-hook call of a piece of trace is paired, `prev` being the event
right before the piece. -/
def guardedFrom : Option Event → List Event → Bool
  | _, [] => true
  | prev, e :: tr => okAfter prev e && guardedFrom (some e) tr

/-- The bytes passed to the write hook in a trace, in order. -/
def hook_tx : List Event → List Nat
  | [] => []
  | .write_hook _ c :: tr => c :: hook_tx tr
  | _ :: tr => hook_tx tr

/-- Modelled from the spec: of the driver calls of `uart.h`, `uart_read` "consumes and
returns one buffered byte" and `uart_read_nonblock` reports "without consuming it".  The
bytes taken out of the UART's pending input by the calls of a trace, in order. -/
def uart_consumed : List Event → List Nat
  | [] => []
  | .uart_read c :: tr => c :: uart_consumed tr
  | _ :: tr => uart_consumed tr

/-- One call of a console operation by the program; results are discarded. -/
inductive Op where
  | set_write_hook (h : Nat)
  | set_read_hook (r rn : Nat)
  | putchar (c : Int)
  | readchar (fuel : Nat)
  | readchar_nonblock
  | puts (s : List Nat)
  | putsnonl (s : List Nat)
  deriving DecidableEq, Repr

/-- The state after one call of a console operation. -/
def step (env : Env) (op : Op) (st : State) : Except Fault State :=
  match op with
  | .set_write_hook h => .ok (console_set_write_hook h st)
  | .set_read_hook r rn => .ok (console_set_read_hook r rn st)
  | .putchar c => .ok (putchar c st).2
  | .readchar fuel =>
    match readchar env fuel st with
    | .ok (_, st1) => .ok st1
    | .error e => .error e
  | .readchar_nonblock => .ok (readchar_nonblock env st).2
  | .puts s =>
    match puts s st with
    | .ok (_, st1) => .ok st1
    | .error e => .error e
  | .putsnonl s => putsnonl s st

/-- The state after a sequence of calls of console operations, first call first. -/
def run (env : Env) : List Op → State → Except Fault State
  | [], st => .ok st
  | op :: ops, st =>
    match step env op st with
    | .ok st1 => run env ops st1
    | .error e => .error e

/-- Whether a call is one of the output operations `putchar`, `puts`, `putsnonl`, with a
NUL-terminated string where it takes one. -/
def Op.isOutput : Op → Bool
  | .putchar _ => true
  | .puts s => decide (0 ∈ s)
  | .putsnonl s => decide (0 ∈ s)
  | _ => false

/-- An environment whose UART has no byte at the first poll and has the byte `'A'` from
the second poll on, and whose read-nonblock hooks report no data. -/
def latePollEnv : Env :=
  ⟨fun tr => decide (2 ≤ tr.length), fun _ => 65, fun _ _ => false, fun _ _ => 0⟩

/-- The mathematical products `d * base` the first loop of `ui2a` forms, in the order of
the multiplications `d*=base`; the control flow is that of `ui2a_scale`. -/
def ui2a_scale_products : Nat → Nat → Nat → Nat → List Nat
  | 0, _, _, _ => []
  | fuel + 1, num, base, d =>
    if d = 0 then []
    else if num / d ≥ base then
      d * base :: ui2a_scale_products fuel num base (d * base % 4294967296)
    else []

/-- Numeral side of the signed round trip, following the claim's words: an optionally
`'-'`-prefixed base-`b` numeral and its value. -/
def parseSigned (b : Nat) (s : List Nat) : Option Int :=
  match s with
  | 45 :: rest => (parseNumeral b rest).map (fun (v : Nat) => -(v : Int))
  | _ => (parseNumeral b s).map (fun (v : Nat) => (v : Int))

/-! ## The formatter `ui2a` -/

theorem log_lt_32 {num base : Nat} (hb : 2 ≤ base) (hn : num < 4294967296) :
    Nat.log base num < 32 := by
  rcases Nat.eq_zero_or_pos num with h0 | hpos
  · subst h0; simp
  · apply Nat.log_lt_of_lt_pow (by omega)
    calc num < 2 ^ 32 := by norm_num; exact hn
      _ ≤ base ^ 32 := Nat.pow_le_pow_left hb 32

theorem ui2a_scale_aux {num base : Nat} (hb : 2 ≤ base) (hn : num < 4294967296) :
    ∀ (m j fuel : Nat), j + m = Nat.log base num → m < fuel →
      ui2a_scale fuel num base (base ^ j) = .ok (base ^ Nat.log base num) := by
  intro m
  induction m with
  | zero =>
    intro j fuel hj hf
    obtain ⟨f, rfl⟩ : ∃ f, fuel = f + 1 := ⟨fuel - 1, by omega⟩
    have hj' : j = Nat.log base num := by omega
    have hpos : 0 < base ^ j := pow_pos (by omega) j
    have hlt : num / base ^ j < base := by
      rw [Nat.div_lt_iff_lt_mul hpos, mul_comm, ← pow_succ, hj']
      exact Nat.lt_pow_succ_log_self (by omega) num
    rw [ui2a_scale, if_neg (by omega), if_neg (by omega), hj']
  | succ m ih =>
    intro j fuel hj hf
    obtain ⟨f, rfl⟩ : ∃ f, fuel = f + 1 := ⟨fuel - 1, by omega⟩
    have hpos : 0 < base ^ j := pow_pos (by omega) j
    have hnum : num ≠ 0 := by
      intro h0; subst h0; simp at hj
    have hle : base ^ (j + 1) ≤ num :=
      Nat.pow_le_of_le_log hnum (by omega)
    have hge : num / base ^ j ≥ base := by
      rw [ge_iff_le, Nat.le_div_iff_mul_le hpos, mul_comm, ← pow_succ]
      exact hle
    have hmod : base ^ j * base % 4294967296 = base ^ (j + 1) := by
      rw [← pow_succ]; exact Nat.mod_eq_of_lt (by omega)
    rw [ui2a_scale, if_neg (by omega), if_pos hge, hmod]
    exact ih (j + 1) f (by omega) (by omega)

theorem ui2a_scale_eq {num base fuel : Nat} (hb : 2 ≤ base) (hn : num < 4294967296)
    (hf : 32 ≤ fuel) : ui2a_scale fuel num base 1 = .ok (base ^ Nat.log base num) := by
  have h := ui2a_scale_aux hb hn (Nat.log base num) 0 fuel (by omega)
    (by have := log_lt_32 hb hn; omega)
  simpa using h

theorem ui2a_emit_done (fuel num base : Nat) (uc : Int) (n : Nat) (bf : List Nat) :
    ui2a_emit (fuel + 1) num base uc 0 n bf = .ok bf := by
  rw [ui2a_emit, if_pos rfl]

theorem ui2a_emit_store {fuel num base d n : Nat} {uc : Int} {bf : List Nat}
    (hd : d ≠ 0) (hb : base ≠ 0) (hc : n ≠ 0 ∨ toInt32 (num / d) > 0 ∨ d / base = 0) :
    ui2a_emit (fuel + 1) num base uc d n bf =
      ui2a_emit fuel (num % d) base uc (d / base) (n + 1)
        (bf ++ [digitChar (toInt32 (num / d)) uc]) := by
  rw [ui2a_emit, if_neg hd]
  simp only [if_neg hb, if_pos hc]

theorem pow_succ_div_self {base : Nat} (hb : 2 ≤ base) (k : Nat) :
    base ^ (k + 1) / base = base ^ k := by
  rw [pow_succ]; exact Nat.mul_div_cancel _ (by omega)

theorem ui2a_emit_places {base : Nat} {uc : Int} (hb : 2 ≤ base) :
    ∀ (k fuel num n : Nat) (bf : List Nat), n ≠ 0 → k + 2 ≤ fuel →
      ui2a_emit fuel num base uc (base ^ k) n bf =
        .ok (bf ++ (places base k num).map (fun x => digitChar (toInt32 x) uc)) := by
  intro k
  induction k with
  | zero =>
    intro fuel num n bf hn hf
    obtain ⟨f, rfl⟩ : ∃ f, fuel = f + 2 := ⟨fuel - 2, by omega⟩
    have h1 : (1 : Nat) / base = 0 := Nat.div_eq_of_lt (by omega)
    rw [pow_zero, ui2a_emit_store (by omega) (by omega) (Or.inl hn), h1, ui2a_emit_done]
    simp [places]
  | succ k ih =>
    intro fuel num n bf hn hf
    obtain ⟨f, rfl⟩ : ∃ f, fuel = f + 1 := ⟨fuel - 1, by omega⟩
    have hpos : 0 < base ^ (k + 1) := pow_pos (by omega) _
    rw [ui2a_emit_store (by omega) (by omega) (Or.inl hn), pow_succ_div_self hb,
      ih f _ (n + 1) _ (by omega) (by omega)]
    simp [places]

theorem ui2a_emit_first {base num : Nat} {uc : Int} (hb : 2 ≤ base) (hn : num < 4294967296)
    {fuel : Nat} (hf : Nat.log base num + 2 ≤ fuel) :
    ui2a_emit fuel num base uc (base ^ Nat.log base num) 0 [] =
      .ok ((places base (Nat.log base num) num).map (fun x => digitChar (toInt32 x) uc)) := by
  obtain ⟨f, rfl⟩ : ∃ f, fuel = f + 1 := ⟨fuel - 1, by omega⟩
  rcases Nat.eq_zero_or_pos (Nat.log base num) with h0 | hpos
  · have h1 : (1 : Nat) / base = 0 := Nat.div_eq_of_lt (by omega)
    obtain ⟨g, rfl⟩ : ∃ g, f = g + 1 := ⟨f - 1, by omega⟩
    rw [h0, pow_zero, ui2a_emit_store (by omega) (by omega) (Or.inr (Or.inr h1)), h1,
      ui2a_emit_done]
    simp [places]
  · obtain ⟨k, hk⟩ : ∃ k, Nat.log base num = k + 1 := ⟨Nat.log base num - 1, by omega⟩
    have hnum : num ≠ 0 := by
      intro h; subst h; simp at hpos
    have hle : base ^ (k + 1) ≤ num := by
      rw [← hk]; exact Nat.pow_log_le_self base hnum
    have hdpos : 0 < base ^ (k + 1) := pow_pos (by omega) _
    have hd2 : 2 ≤ base ^ (k + 1) := by
      calc 2 ≤ base := hb
        _ = base ^ 1 := (pow_one base).symm
        _ ≤ base ^ (k + 1) := Nat.pow_le_pow_right (by omega) (by omega)
    have hq1 : 1 ≤ num / base ^ (k + 1) := by
      rw [Nat.le_div_iff_mul_le hdpos]; omega
    have hq2 : num / base ^ (k + 1) < 2147483648 := by
      rw [Nat.div_lt_iff_lt_mul hdpos]
      calc num < 2147483648 * 2 := by omega
        _ ≤ 2147483648 * base ^ (k + 1) := Nat.mul_le_mul_left _ hd2
    have hdg : toInt32 (num / base ^ (k + 1)) > 0 := by
      unfold toInt32
      rw [Nat.mod_eq_of_lt (by omega), if_pos hq2]
      exact_mod_cast hq1
    rw [hk, ui2a_emit_store (by omega) (by omega) (Or.inr (Or.inl hdg)), pow_succ_div_self hb,
      ui2a_emit_places hb k f _ 1 _ (by omega) (by omega)]
    simp [places]

/-- Closed form of `ui2a` for a base of at least two: the digits at the places
`base^(log base num), …, base^0`, then the NUL. -/
theorem ui2a_eq {num base fuel : Nat} (uc : Int) (hb : 2 ≤ base) (hn : num < 4294967296)
    (hf : 33 ≤ fuel) :
    ui2a fuel num base uc =
      .ok ((places base (Nat.log base num) num).map (fun x => digitChar (toInt32 x) uc)
        ++ [0]) := by
  have hl := log_lt_32 hb hn
  unfold ui2a
  rw [ui2a_scale_eq hb hn (by omega)]
  simp only
  rw [ui2a_emit_first hb hn (by omega)]

/-! ### Properties of the digit list -/

theorem places_length (base : Nat) : ∀ (k num : Nat), (places base k num).length = k + 1 := by
  intro k
  induction k with
  | zero => intro num; simp [places]
  | succ k ih => intro num; simp [places, ih]

theorem places_lt {base : Nat} (hb : 0 < base) :
    ∀ (k num : Nat), num < base ^ (k + 1) → ∀ x ∈ places base k num, x < base := by
  intro k
  induction k with
  | zero =>
    intro num hnum x hx
    simp [places] at hx
    subst hx
    simpa using hnum
  | succ k ih =>
    intro num hnum x hx
    have hpos : 0 < base ^ (k + 1) := pow_pos hb _
    simp only [places, List.mem_cons] at hx
    rcases hx with hx | hx
    · subst hx
      rw [Nat.div_lt_iff_lt_mul hpos, mul_comm, ← pow_succ]
      exact hnum
    · exact ih _ (Nat.mod_lt _ hpos) x hx

theorem places_head (base : Nat) (k num : Nat) :
    (places base k num).head? = some (num / base ^ k) := by
  cases k with
  | zero => simp [places]
  | succ k => simp [places]

theorem places_foldl (base : Nat) :
    ∀ (k num acc : Nat),
      (places base k num).foldl (fun a x => a * base + x) acc = acc * base ^ (k + 1) + num := by
  intro k
  induction k with
  | zero => intro num acc; simp [places]
  | succ k ih =>
    intro num acc
    simp only [places, List.foldl_cons]
    rw [ih]
    have h := Nat.div_add_mod num (base ^ (k + 1))
    have e : (acc * base + num / base ^ (k + 1)) * base ^ (k + 1)
        = acc * base ^ (k + 1 + 1) + base ^ (k + 1) * (num / base ^ (k + 1)) := by ring
    rw [e]; omega

theorem toInt32_small {x : Nat} (hx : x < 2147483648) : toInt32 x = (x : Int) := by
  unfold toInt32
  rw [Nat.mod_eq_of_lt (by omega), if_pos hx]

theorem digitChar_small {x : Nat} (uc : Int) (hx : x < 169) :
    digitChar (toInt32 x) uc =
      if x < 10 then x + 48 else if uc ≠ 0 then x + 55 else x + 87 := by
  rw [toInt32_small (by omega)]
  unfold digitChar toChar
  by_cases h10 : x < 10
  · have h10' : (x : Int) < 10 := by exact_mod_cast h10
    rw [if_pos h10, if_pos h10']; omega
  · have h10' : ¬ (x : Int) < 10 := by
      intro h; exact h10 (by exact_mod_cast h)
    rw [if_neg h10, if_neg h10']
    by_cases hu : uc ≠ 0
    · rw [if_pos hu, if_pos hu]; omega
    · rw [if_neg hu, if_neg hu]; omega

theorem digitValue_digitChar {x : Nat} (uc : Int) (hx : x < 36) :
    digitValue (digitChar (toInt32 x) uc) = some x := by
  rw [digitChar_small uc (by omega)]
  unfold digitValue
  by_cases h10 : x < 10
  · rw [if_pos h10, if_pos (by omega)]; simp
  · rw [if_neg h10]
    by_cases hu : uc ≠ 0
    · rw [if_pos hu, if_neg (by omega), if_neg (by omega), if_pos (by omega)]
      congr 1; omega
    · rw [if_neg hu, if_neg (by omega), if_pos (by omega)]
      congr 1; omega

theorem digitChar_ne_zero {x : Nat} (uc : Int) (hx : x < 36) :
    digitChar (toInt32 x) uc ≠ 0 := by
  rw [digitChar_small uc (by omega)]
  split_ifs <;> omega

theorem parseFrom_digits {b : Nat} (uc : Int) (hb : b ≤ 36) :
    ∀ (ds : List Nat) (acc : Nat), (∀ x ∈ ds, x < b) →
      parseFrom b acc (ds.map (fun x => digitChar (toInt32 x) uc)) =
        some (ds.foldl (fun a x => a * b + x) acc) := by
  intro ds
  induction ds with
  | nil => intro acc _; simp [parseFrom]
  | cons d ds ih =>
    intro acc h
    have hd : d < b := h d (by simp)
    simp only [List.map_cons, parseFrom, List.foldl_cons]
    rw [digitValue_digitChar uc (by omega)]
    simp only [if_pos hd]
    exact ih _ (fun x hx => h x (by simp [hx]))

theorem cstr_append_nul (ds : List Nat) (h : ∀ x ∈ ds, x ≠ 0) : cstr (ds ++ [0]) = ds := by
  unfold cstr
  induction ds with
  | nil => simp
  | cons d ds ih =>
    have hd : d ≠ 0 := h d (by simp)
    simp only [List.cons_append, List.takeWhile_cons]
    simp only [hd, ne_eq, not_false_eq_true, decide_True, if_true]
    rw [ih (fun x hx => h x (by simp [hx]))]

theorem parseNumeral_of_ne_nil (b : Nat) {s : List Nat} (h : s ≠ []) :
    parseNumeral b s = parseFrom b 0 s := by
  cases s with
  | nil => exact absurd rfl h
  | cons ch rest => rfl

theorem places_log_lt {num base : Nat} (hb : 2 ≤ base) :
    ∀ x ∈ places base (Nat.log base num) num, x < base :=
  places_lt (by omega) _ _ (Nat.lt_pow_succ_log_self (by omega) num)

theorem places_ne_nil (base k num : Nat) : places base k num ≠ [] := by
  intro h
  have := places_length base k num
  rw [h] at this
  simp at this

/-- The text of `ui2a` for a base from 2 to 36: the digit characters of the places. -/
theorem ui2a_text {num base : Nat} (uc : Int) (hb : 2 ≤ base) (hb36 : base ≤ 36) :
    cstr ((places base (Nat.log base num) num).map (fun x => digitChar (toInt32 x) uc) ++ [0])
      = (places base (Nat.log base num) num).map (fun x => digitChar (toInt32 x) uc) := by
  apply cstr_append_nul
  intro y hy
  rw [List.mem_map] at hy
  obtain ⟨x, hx, rfl⟩ := hy
  exact digitChar_ne_zero uc (by have := @places_log_lt num base hb x hx; omega)

theorem ui2a_parse {num base : Nat} (uc : Int) (hb : 2 ≤ base) (hb36 : base ≤ 36) :
    parseNumeral base
      ((places base (Nat.log base num) num).map (fun x => digitChar (toInt32 x) uc))
      = some num := by
  rw [parseNumeral_of_ne_nil base (by simpa using places_ne_nil base _ num),
    parseFrom_digits uc hb36 _ 0 (places_log_lt hb), places_foldl]
  simp

/-! ### Claims about `ui2a` and `i2a` -/

/-- C1. Round trip of `ui2a`: for every 32-bit unsigned `n`, every base `b` in
{2, 8, 10, 16} and every value of the `uc` flag, `ui2a` returns (given 33 units of fuel or
more), and the NUL-terminated text it wrote, parsed as a base-`b` numeral, is `n`. -/
theorem ui2a_round_trip (fuel n b : Nat) (uc : Int) (hn : n < 4294967296)
    (hb : b = 2 ∨ b = 8 ∨ b = 10 ∨ b = 16) (hf : 33 ≤ fuel) :
    ∃ buf, ui2a fuel n b uc = .ok buf ∧ parseNumeral b (cstr buf) = some n := by
  have hb2 : 2 ≤ b := by omega
  have hb36 : b ≤ 36 := by omega
  refine ⟨_, ui2a_eq uc hb2 hn hf, ?_⟩
  rw [ui2a_text uc hb2 hb36]
  exact ui2a_parse uc hb2 hb36

theorem ui2a_round_trip_witness :
    ∃ buf, ui2a 33 3735928559 16 1 = .ok buf ∧ parseNumeral 16 (cstr buf) = some 3735928559 :=
  ui2a_round_trip 33 3735928559 16 1 (by decide) (by decide) (by decide)

theorem places_log_head_pos {num base : Nat} (hn : 0 < num) :
    1 ≤ num / base ^ Nat.log base num := by
  rcases Nat.eq_zero_or_pos base with h0 | hb
  · subst h0
    simp [Nat.log_of_left_le_one]
    omega
  · rw [Nat.le_div_iff_mul_le (pow_pos hb _), one_mul]
    exact Nat.pow_log_le_self base (by omega)

/-- C2. Leading-zero suppression of `ui2a`: for every 32-bit unsigned `n` and every base in
{2, 8, 10, 16}, `ui2a` returns, its text is not empty, the text is exactly `"0"` when
`n = 0`, and the first character of the text is not `'0'` when `n > 0`. -/
theorem ui2a_no_leading_zero (fuel n b : Nat) (uc : Int) (hn : n < 4294967296)
    (hb : b = 2 ∨ b = 8 ∨ b = 10 ∨ b = 16) (hf : 33 ≤ fuel) :
    ∃ buf, ui2a fuel n b uc = .ok buf ∧ cstr buf ≠ [] ∧
      (n = 0 → cstr buf = [48]) ∧ (0 < n → (cstr buf).head? ≠ some 48) := by
  have hb2 : 2 ≤ b := by omega
  have hb36 : b ≤ 36 := by omega
  refine ⟨_, ui2a_eq uc hb2 hn hf, ?_⟩
  rw [ui2a_text uc hb2 hb36]
  refine ⟨by simpa using places_ne_nil b _ n, ?_, ?_⟩
  · intro h0
    subst h0
    simp [places, digitChar_small uc (by omega : 0 < 169)]
  · intro hpos
    rw [List.head?_map, places_head]
    have h1 : 1 ≤ n / b ^ Nat.log b n := places_log_head_pos hpos
    have h2 : n / b ^ Nat.log b n < b :=
      places_log_lt hb2 _ (List.mem_of_mem_head? (places_head b _ n))
    simp only [Option.map_some', ne_eq, Option.some.injEq]
    rw [digitChar_small uc (by omega)]
    split_ifs <;> omega

theorem ui2a_no_leading_zero_witness :
    ∃ buf, ui2a 33 1000 10 0 = .ok buf ∧ cstr buf ≠ [] ∧
      ((1000 : Nat) = 0 → cstr buf = [48]) ∧ (0 < 1000 → (cstr buf).head? ≠ some 48) :=
  ui2a_no_leading_zero 33 1000 10 0 (by decide) (by decide) (by decide)

theorem toU32_lt (x : Int) : toU32 x < 4294967296 := by
  unfold toU32; omega

theorem toU32_of_nonneg {x : Int} (h0 : 0 ≤ x) (h1 : x < 4294967296) : toU32 x = x.toNat := by
  unfold toU32; omega

theorem toU32_neg_magnitude {x : Int} (h0 : x < 0) (h1 : -2147483648 ≤ x) :
    toU32 (wrapInt32 (-x)) = x.natAbs := by
  unfold wrapInt32 toInt32 toU32
  split_ifs <;> omega

/-- Enough fuel gives one result: any two runs of `ui2a` with 33 units or more agree. -/
theorem ui2a_fuel_irrelevant {num base : Nat} (uc : Int) (hb : 2 ≤ base)
    (hn : num < 4294967296) {f g : Nat} (hf : 33 ≤ f) (hg : 33 ≤ g) :
    ui2a f num base uc = ui2a g num base uc :=
  (ui2a_eq uc hb hn hf).trans (ui2a_eq uc hb hn hg).symm

theorem i2a_nonneg (fuel : Nat) {num : Int} (b : Nat) (h0 : 0 ≤ num) (h1 : num < 2147483648)
    (hb : b < 4294967296) : i2a fuel num b = ui2a fuel num.toNat b 0 := by
  unfold i2a
  rw [if_neg (by omega), toU32_of_nonneg h0 (by omega),
    toU32_of_nonneg (by omega) (by exact_mod_cast hb)]
  simp

theorem i2a_neg (fuel : Nat) {num : Int} (b : Nat) (h0 : num < 0) (h1 : -2147483648 ≤ num)
    (hb : b < 4294967296) {t : List Nat} (ht : ui2a fuel num.natAbs b 0 = .ok t) :
    i2a fuel num b = .ok (45 :: t) := by
  unfold i2a
  rw [if_pos h0, toU32_neg_magnitude h0 h1,
    toU32_of_nonneg (by omega) (by exact_mod_cast hb)]
  simp only [Int.toNat_ofNat]
  rw [ht]

/-- C3. Signed formatting `i2a`: for every 32-bit signed `num` and every base in
{2, 8, 10, 16}, when `num >= 0` the bytes `i2a` stores are exactly those `ui2a` stores for
`num` with `uc = 0`, and when `num < 0` they are `'-'` followed by exactly those `ui2a`
stores for the magnitude of `num` with `uc = 0` (both calls return).  In particular
`i2a(-42, 10)` writes `"-42"` and `i2a(0, 10)` writes `"0"`. -/
theorem i2a_delegates (fuel : Nat) (num : Int) (b : Nat) (hlo : -2147483648 ≤ num)
    (hhi : num < 2147483648) (hb : b = 2 ∨ b = 8 ∨ b = 10 ∨ b = 16) (hf : 33 ≤ fuel) :
    (0 ≤ num → ∃ t, ui2a fuel num.toNat b 0 = .ok t ∧ i2a fuel num b = .ok t) ∧
    (num < 0 → ∃ t, ui2a fuel num.natAbs b 0 = .ok t ∧ i2a fuel num b = .ok (45 :: t)) ∧
    i2a fuel (-42) 10 = .ok [45, 52, 50, 0] ∧ cstr [45, 52, 50, 0] = [45, 52, 50] ∧
    i2a fuel 0 10 = .ok [48, 0] ∧ cstr [48, 0] = [48] := by
  have hb2 : 2 ≤ b := by omega
  refine ⟨?_, ?_, ?_, by decide, ?_, by decide⟩
  · intro h0
    refine ⟨_, ui2a_eq 0 hb2 (by omega) hf, ?_⟩
    rw [i2a_nonneg fuel b h0 hhi (by omega)]
    exact ui2a_eq 0 hb2 (by omega) hf
  · intro h0
    have ht := @ui2a_eq num.natAbs b fuel 0 hb2 (by omega) hf
    exact ⟨_, ht, i2a_neg fuel b h0 hlo (by omega) ht⟩
  · have ht : ui2a fuel (-42 : Int).natAbs 10 0 = .ok [52, 50, 0] :=
      (ui2a_fuel_irrelevant 0 (by decide) (by decide) hf (le_refl 33)).trans rfl
    exact i2a_neg fuel 10 (by decide) (by decide) (by decide) ht
  · show i2a fuel 0 ((10 : Nat) : Int) = _
    rw [i2a_nonneg fuel 10 (le_refl 0) (by decide) (by decide)]
    exact (ui2a_fuel_irrelevant 0 (by decide) (by decide) hf (le_refl 33)).trans rfl

theorem i2a_delegates_witness :
    (0 ≤ (-2147483648 : Int) →
      ∃ t, ui2a 33 (-2147483648 : Int).toNat 16 0 = .ok t ∧
        i2a 33 (-2147483648) (16 : Nat) = .ok t) ∧
    ((-2147483648 : Int) < 0 →
      ∃ t, ui2a 33 (-2147483648 : Int).natAbs 16 0 = .ok t ∧
        i2a 33 (-2147483648) (16 : Nat) = .ok (45 :: t)) ∧
    i2a 33 (-42) 10 = .ok [45, 52, 50, 0] ∧ cstr [45, 52, 50, 0] = [45, 52, 50] ∧
    i2a 33 0 10 = .ok [48, 0] ∧ cstr [48, 0] = [48] :=
  i2a_delegates 33 (-2147483648) 16 (by decide) (by decide) (by decide) (by decide)

theorem upperOf_digitChar {x : Nat} {uc : Int} (huc : uc ≠ 0) (hx : x < 36) :
    upperOf (digitChar (toInt32 x) 0) = digitChar (toInt32 x) uc := by
  rw [digitChar_small 0 (by omega), digitChar_small uc (by omega)]
  unfold upperOf
  simp only [ne_eq, not_true_eq_false, if_false, huc, not_false_eq_true, if_true]
  by_cases h10 : x < 10
  · simp only [if_pos h10]
    rw [if_neg (by omega)]
  · simp only [if_neg h10]
    rw [if_pos (by omega)]
    omega

theorem digitChar_not_upper {x : Nat} (hx : x < 36) :
    ¬ (65 ≤ digitChar (toInt32 x) 0 ∧ digitChar (toInt32 x) 0 ≤ 90) := by
  rw [digitChar_small 0 (by omega)]
  simp only [ne_eq, not_true_eq_false, if_false]
  by_cases h10 : x < 10
  · simp only [if_pos h10]; omega
  · simp only [if_neg h10]; omega

theorem digitChar_decimal {x : Nat} (uc : Int) (hx : x < 10) :
    digitChar (toInt32 x) uc = digitChar (toInt32 x) 0 := by
  rw [digitChar_small 0 (by omega), digitChar_small uc (by omega), if_pos hx, if_pos hx]

theorem ui2a_upper {n b fuel : Nat} {uc : Int} (hn : n < 4294967296) (huc : uc ≠ 0)
    (hf : 33 ≤ fuel) (hb : 2 ≤ b) (hb36 : b ≤ 36) :
    ∃ lo, ui2a fuel n b 0 = .ok lo ∧ ui2a fuel n b uc = .ok (lo.map upperOf) ∧
      ∀ ch ∈ lo, ¬ (65 ≤ ch ∧ ch ≤ 90) := by
  refine ⟨_, ui2a_eq 0 hb hn hf, ?_, ?_⟩
  · rw [ui2a_eq uc hb hn hf]
    congr 1
    simp only [List.map_append, List.map_map, List.map_cons, List.map_nil]
    congr 1
    apply List.map_congr_left
    intro x hx
    have := @places_log_lt n b hb x hx
    exact (upperOf_digitChar huc (by omega)).symm
  · intro ch hch
    rw [List.mem_append, List.mem_map] at hch
    rcases hch with ⟨x, hx, rfl⟩ | hch
    · have := @places_log_lt n b hb x hx
      exact digitChar_not_upper (by omega)
    · simp at hch; omega

theorem ui2a_decimal_case {n b fuel : Nat} (uc : Int) (hn : n < 4294967296)
    (hf : 33 ≤ fuel) (hb : 2 ≤ b) (hb10 : b ≤ 10) :
    ∃ buf, ui2a fuel n b 0 = .ok buf ∧ ui2a fuel n b uc = .ok buf := by
  refine ⟨_, ui2a_eq 0 hb hn hf, ?_⟩
  rw [ui2a_eq uc hb hn hf]
  congr 2
  apply List.map_congr_left
  intro x hx
  have := @places_log_lt n b hb x hx
  exact digitChar_decimal uc (by omega)

/-- C4. Letter case of `ui2a`: for every 32-bit unsigned `n` and every non-zero `uc`, for a
base from 11 to 36 the bytes stored with `uc` set are those stored with `uc = 0` with each
letter `a-z` replaced by the matching `A-Z`, and the `uc = 0` output holds no letter `A-Z`;
for a base from 2 to 10 the flag does not change the output.  In particular
`ui2a(255, 16, uc)` writes `"FF"` and `ui2a(255, 16, 0)` writes `"ff"`. -/
theorem ui2a_letter_case (fuel n b : Nat) (uc : Int) (hn : n < 4294967296) (huc : uc ≠ 0)
    (hf : 33 ≤ fuel) :
    (11 ≤ b → b ≤ 36 →
      ∃ lo, ui2a fuel n b 0 = .ok lo ∧ ui2a fuel n b uc = .ok (lo.map upperOf) ∧
        ∀ ch ∈ lo, ¬ (65 ≤ ch ∧ ch ≤ 90)) ∧
    (2 ≤ b → b ≤ 10 → ∃ buf, ui2a fuel n b 0 = .ok buf ∧ ui2a fuel n b uc = .ok buf) ∧
    ui2a fuel 255 16 uc = .ok [70, 70, 0] ∧ ui2a fuel 255 16 0 = .ok [102, 102, 0] := by
  have hex : ui2a fuel 255 16 0 = .ok [102, 102, 0] :=
    (ui2a_fuel_irrelevant 0 (by decide) (by decide) hf (le_refl 33)).trans rfl
  refine ⟨fun h11 h36 => ui2a_upper hn huc hf (by omega) h36,
    fun h2 h10 => ui2a_decimal_case uc hn hf h2 h10, ?_, hex⟩
  obtain ⟨lo, h0, h1, -⟩ :=
    ui2a_upper (n := 255) (b := 16) (by decide) huc hf (by decide) (by decide)
  rw [hex] at h0
  cases h0
  rw [h1]
  rfl

theorem ui2a_letter_case_witness :
    (11 ≤ 36 → 36 ≤ 36 →
      ∃ lo, ui2a 33 4294967295 36 0 = .ok lo ∧
        ui2a 33 4294967295 36 1 = .ok (lo.map upperOf) ∧
        ∀ ch ∈ lo, ¬ (65 ≤ ch ∧ ch ≤ 90)) ∧
    (2 ≤ 36 → 36 ≤ 10 →
      ∃ buf, ui2a 33 4294967295 36 0 = .ok buf ∧ ui2a 33 4294967295 36 1 = .ok buf) ∧
    ui2a 33 255 16 1 = .ok [70, 70, 0] ∧ ui2a 33 255 16 0 = .ok [102, 102, 0] :=
  ui2a_letter_case 33 4294967295 36 1 (by decide) (by decide) (by decide)

theorem ui2a_length {n b fuel : Nat} (uc : Int) (hn : n < 4294967296) (hb : 2 ≤ b)
    (hf : 33 ≤ fuel) :
    ∃ digits, ui2a fuel n b uc = .ok (digits ++ [0]) ∧ digits.length = Nat.log b n + 1 :=
  ⟨_, ui2a_eq uc hb hn hf, by rw [List.length_map, places_length]⟩

theorem i2a_length {fuel : Nat} {num base : Int} (hb : 2 ≤ base) (hb31 : base < 2147483648)
    (hf : 33 ≤ fuel) : ∃ out, i2a fuel num base = .ok out ∧ out.length ≤ 34 := by
  have hbu : 2 ≤ toU32 base := by unfold toU32; omega
  unfold i2a
  by_cases h0 : num < 0
  · obtain ⟨digits, h1, h2⟩ :=
      ui2a_length (n := toU32 (wrapInt32 (-num))) 0 (toU32_lt _) hbu hf
    have := log_lt_32 hbu (toU32_lt (wrapInt32 (-num)))
    rw [if_pos h0, h1]
    exact ⟨_, rfl, by simp; omega⟩
  · obtain ⟨digits, h1, h2⟩ := ui2a_length (n := toU32 num) 0 (toU32_lt _) hbu hf
    have := log_lt_32 hbu (toU32_lt num)
    rw [if_neg h0, h1]
    exact ⟨_, rfl, by simp; omega⟩

/-- C5. Buffer bound of the formatters: for every 32-bit unsigned `n` and every base
`b >= 2`, `ui2a` stores at most 32 digit bytes and then one NUL byte, 33 bytes at most
(exactly 32 digit bytes for base 2 when `n >= 2^31`); for every 32-bit signed `num` and
every base `>= 2`, `i2a` stores at most 34 bytes. -/
theorem formatters_buffer_bound (fuel : Nat) (hf : 33 ≤ fuel) :
    (∀ (n b : Nat) (uc : Int), n < 4294967296 → 2 ≤ b →
      ∃ digits, ui2a fuel n b uc = .ok (digits ++ [0]) ∧ digits.length ≤ 32 ∧
        (digits ++ [0]).length ≤ 33 ∧ (b = 2 → 2147483648 ≤ n → digits.length = 32)) ∧
    (∀ (num base : Int), -2147483648 ≤ num → num < 2147483648 → 2 ≤ base →
      base < 2147483648 → ∃ out, i2a fuel num base = .ok out ∧ out.length ≤ 34) := by
  constructor
  · intro n b uc hn hb
    obtain ⟨digits, h1, h2⟩ := ui2a_length uc hn hb hf
    have hl := log_lt_32 hb hn
    refine ⟨digits, h1, by omega, by simp; omega, ?_⟩
    intro hb2 hbig
    subst hb2
    have : Nat.log 2 n = 31 :=
      Nat.log_eq_of_pow_le_of_lt_pow (by norm_num; exact hbig) (by norm_num; exact hn)
    omega
  · intro num base _ _ hb hb31
    exact i2a_length hb hb31 hf

theorem formatters_buffer_bound_witness :
    ∃ digits, ui2a 33 4294967295 2 0 = .ok (digits ++ [0]) ∧ digits.length ≤ 32 ∧
      (digits ++ [0]).length ≤ 33 ∧ (2 = 2 → 2147483648 ≤ 4294967295 → digits.length = 32) :=
  (formatters_buffer_bound 33 (by decide)).1 4294967295 2 0 (by decide) (by decide)

/-! ## The console operations -/

theorem putchar_eq (c : Int) (st : State) :
    putchar c st = (c, ⟨st.write_hook, st.read_hook, st.read_nonblock_hook,
      st.trace ++ putchar_events st.write_hook (toChar c)⟩) := by
  unfold putchar putchar_events State.log
  by_cases h : st.write_hook = 0
  · simp [h]
  · simp [h]

theorem uart_tx_append (tr1 tr2 : List Event) :
    uart_tx (tr1 ++ tr2) = uart_tx tr1 ++ uart_tx tr2 := by
  induction tr1 with
  | nil => simp [uart_tx]
  | cons e tr ih => cases e <;> simp [uart_tx, ih]

theorem uart_tx_putchar_events (h c : Nat) : uart_tx (putchar_events h c) = [c] := by
  unfold putchar_events
  split_ifs <;> simp [uart_tx]

theorem toChar_byte {c : Int} (h0 : 0 ≤ c) (h1 : c < 256) : toChar c = c.toNat := by
  unfold toChar; omega

theorem toChar_nat {ch : Nat} (h : ch < 256) : toChar (ch : Int) = ch := by
  unfold toChar; omega

/-- C6. The function `putchar`: for every byte value `c` and every console state,
`putchar(c)` returns `c`; when a write hook is registered the calls it makes are exactly
one `uart_write` of `c` followed by one call of that hook with `c`; when none is registered
the only call is one `uart_write` of `c`.  The registered hooks are left as they were. -/
theorem putchar_spec (c : Int) (st : State) (h0 : 0 ≤ c) (h1 : c < 256) :
    (putchar c st).1 = c ∧
    (st.write_hook ≠ 0 → (putchar c st).2.trace =
      st.trace ++ [Event.uart_write c.toNat, Event.write_hook st.write_hook c.toNat]) ∧
    (st.write_hook = 0 → (putchar c st).2.trace = st.trace ++ [Event.uart_write c.toNat]) ∧
    uart_tx (putchar c st).2.trace = uart_tx st.trace ++ [c.toNat] ∧
    (putchar c st).2.write_hook = st.write_hook ∧ (putchar c st).2.read_hook = st.read_hook ∧
    (putchar c st).2.read_nonblock_hook = st.read_nonblock_hook := by
  rw [putchar_eq, toChar_byte h0 h1]
  refine ⟨rfl, ?_, ?_, ?_, rfl, rfl, rfl⟩
  · intro h
    simp only [putchar_events, if_pos h]
  · intro h
    simp only [putchar_events, h, ne_eq, not_true_eq_false, if_false]
  · simp only [uart_tx_append, uart_tx_putchar_events]

theorem putchar_spec_witness :
    (putchar 65 (console_set_write_hook 4096 State.init)).1 = 65 ∧
    ((console_set_write_hook 4096 State.init).write_hook ≠ 0 →
      (putchar 65 (console_set_write_hook 4096 State.init)).2.trace =
        (console_set_write_hook 4096 State.init).trace ++
          [Event.uart_write (65 : Int).toNat,
            Event.write_hook (console_set_write_hook 4096 State.init).write_hook
              (65 : Int).toNat]) ∧
    ((console_set_write_hook 4096 State.init).write_hook = 0 →
      (putchar 65 (console_set_write_hook 4096 State.init)).2.trace =
        (console_set_write_hook 4096 State.init).trace ++
          [Event.uart_write (65 : Int).toNat]) ∧
    uart_tx (putchar 65 (console_set_write_hook 4096 State.init)).2.trace =
      uart_tx (console_set_write_hook 4096 State.init).trace ++ [(65 : Int).toNat] ∧
    (putchar 65 (console_set_write_hook 4096 State.init)).2.write_hook =
      (console_set_write_hook 4096 State.init).write_hook ∧
    (putchar 65 (console_set_write_hook 4096 State.init)).2.read_hook =
      (console_set_write_hook 4096 State.init).read_hook ∧
    (putchar 65 (console_set_write_hook 4096 State.init)).2.read_nonblock_hook =
      (console_set_write_hook 4096 State.init).read_nonblock_hook :=
  putchar_spec 65 (console_set_write_hook 4096 State.init) (by decide) (by decide)

theorem putchars_eq : ∀ (cs : List Int) (st : State),
    putchars cs st = ⟨st.write_hook, st.read_hook, st.read_nonblock_hook,
      st.trace ++ put_events st.write_hook (cs.map toChar)⟩ := by
  intro cs
  induction cs with
  | nil => intro st; simp [putchars, put_events]
  | cons c cs ih =>
    intro st
    rw [putchars, ih, putchar_eq]
    simp [put_events]

theorem uart_tx_put_events (h : Nat) : ∀ cs : List Nat, uart_tx (put_events h cs) = cs := by
  intro cs
  induction cs with
  | nil => rfl
  | cons c cs ih => rw [put_events, uart_tx_append, uart_tx_putchar_events, ih]; rfl

theorem put_events_hook (h2 : Nat) :
    ∀ (cs : List Nat) (h c : Nat), Event.write_hook h c ∈ put_events h2 cs → h = h2 ∧ h2 ≠ 0 := by
  intro cs
  induction cs with
  | nil => intro h c hm; simp [put_events] at hm
  | cons b cs ih =>
    intro h c hm
    rw [put_events, List.mem_append] at hm
    rcases hm with hm | hm
    · unfold putchar_events at hm
      by_cases h0 : h2 ≠ 0
      · rw [if_pos h0] at hm
        simp at hm
        exact ⟨hm.1, h0⟩
      · rw [if_neg h0] at hm
        simp at hm
    · exact ih h c hm

theorem put_events_null : ∀ cs : List Nat, put_events 0 cs = cs.map Event.uart_write := by
  intro cs
  induction cs with
  | nil => rfl
  | cons c cs ih => simp [put_events, putchar_events, ih]

/-- C7. Write-hook registration is last-call-wins: after `console_set_write_hook(h1)` and
then `console_set_write_hook(h2)` the hook variable holds `h2`, and every `putchar` of a
later run makes one `uart_write` and then, when `h2` is not `NULL`, one call through `h2`:
each hook call in the run goes through `h2` (never through another address); when `h2` is
`NULL` the run makes no hook call and still passes every byte to `uart_write`. -/
theorem write_hook_last_call_wins (h1 h2 : Nat) (st : State) (cs : List Int) :
    (console_set_write_hook h2 (console_set_write_hook h1 st)).write_hook = h2 ∧
    (putchars cs (console_set_write_hook h2 (console_set_write_hook h1 st))).trace =
      st.trace ++ put_events h2 (cs.map toChar) ∧
    (∀ h c, Event.write_hook h c ∈ put_events h2 (cs.map toChar) → h = h2 ∧ h2 ≠ 0) ∧
    (h1 ≠ h2 → ∀ c, Event.write_hook h1 c ∉ put_events h2 (cs.map toChar)) ∧
    (h2 = 0 → put_events h2 (cs.map toChar) = (cs.map toChar).map Event.uart_write) ∧
    uart_tx (put_events h2 (cs.map toChar)) = cs.map toChar := by
  refine ⟨rfl, ?_, put_events_hook h2 _, ?_, ?_, uart_tx_put_events h2 _⟩
  · rw [putchars_eq]; rfl
  · intro hne c hm
    exact hne (put_events_hook h2 _ h1 c hm).1
  · intro h0
    subst h0
    exact put_events_null _

theorem cstr_cons_ne {ch : Nat} (s : List Nat) (h : ch ≠ 0) : cstr (ch :: s) = ch :: cstr s := by
  unfold cstr
  simp [List.takeWhile_cons, h]

theorem cstr_cons_nul (s : List Nat) : cstr (0 :: s) = [] := by
  unfold cstr
  simp [List.takeWhile_cons]

theorem put_events_append (h : Nat) : ∀ (xs ys : List Nat),
    put_events h (xs ++ ys) = put_events h xs ++ put_events h ys := by
  intro xs
  induction xs with
  | nil => intro ys; rfl
  | cons x xs ih => intro ys; simp [put_events, ih]

theorem puts_eq : ∀ (s : List Nat) (st : State), 0 ∈ s → (∀ ch ∈ s, ch < 256) →
    puts s st = .ok (1, ⟨st.write_hook, st.read_hook, st.read_nonblock_hook,
      st.trace ++ put_events st.write_hook (cstr s ++ [10])⟩) := by
  intro s
  induction s with
  | nil => intro st hs; simp at hs
  | cons ch s ih =>
    intro st hs hb
    by_cases h0 : ch ≠ 0
    · have hs1 : 0 ∈ s := by
        rcases List.mem_cons.mp hs with h | h
        · exact absurd h.symm h0
        · exact h
      rw [puts, if_pos h0, putchar_eq, ih _ hs1 (fun x hx => hb x (by simp [hx])),
        cstr_cons_ne s h0, toChar_nat (hb ch (by simp))]
      simp [put_events]
    · have hz : ch = 0 := by simpa using h0
      subst hz
      rw [puts, if_neg h0, putchar_eq, cstr_cons_nul]
      simp [put_events, toChar]

theorem putsnonl_eq : ∀ (s : List Nat) (st : State), 0 ∈ s → (∀ ch ∈ s, ch < 256) →
    putsnonl s st = .ok ⟨st.write_hook, st.read_hook, st.read_nonblock_hook,
      st.trace ++ put_events st.write_hook (cstr s)⟩ := by
  intro s
  induction s with
  | nil => intro st hs; simp at hs
  | cons ch s ih =>
    intro st hs hb
    by_cases h0 : ch ≠ 0
    · have hs1 : 0 ∈ s := by
        rcases List.mem_cons.mp hs with h | h
        · exact absurd h.symm h0
        · exact h
      rw [putsnonl, if_pos h0, putchar_eq, ih _ hs1 (fun x hx => hb x (by simp [hx])),
        cstr_cons_ne s h0, toChar_nat (hb ch (by simp))]
      simp [put_events]
    · have hz : ch = 0 := by simpa using h0
      subst hz
      rw [putsnonl, if_neg h0, cstr_cons_nul]
      simp [put_events]

/-- C8. The function `puts`: for every NUL-terminated string `s` (bytes below 256 with a
NUL among them) `puts(s)` returns `1`; the calls it makes are those of one `putchar` per
byte of `s` before its first NUL, in order, then those of one `putchar` of the line feed
`0x0A`, so the bytes passed to `uart_write` are exactly the text of `s` followed by one line
feed.  For `s = "hi"` the bytes written are `'h'`, `'i'`, `'\n'`. -/
theorem puts_spec (s : List Nat) (st : State) (hs : 0 ∈ s) (hb : ∀ ch ∈ s, ch < 256) :
    (∃ st1, puts s st = .ok (1, st1) ∧
      st1.trace = st.trace ++ put_events st.write_hook (cstr s ++ [10]) ∧
      uart_tx st1.trace = uart_tx st.trace ++ (cstr s ++ [10])) ∧
    (∃ st2, puts [104, 105, 0] st = .ok (1, st2) ∧
      uart_tx st2.trace = uart_tx st.trace ++ [104, 105, 10]) := by
  constructor
  · refine ⟨_, puts_eq s st hs hb, rfl, ?_⟩
    simp only [uart_tx_append, uart_tx_put_events]
  · refine ⟨_, puts_eq [104, 105, 0] st (by decide) (by decide), ?_⟩
    simp only [uart_tx_append, uart_tx_put_events]
    rfl

theorem puts_spec_witness :
    (∃ st1, puts [79, 75, 0, 33] State.init = .ok (1, st1) ∧
      st1.trace = State.init.trace ++ put_events State.init.write_hook (cstr [79, 75, 0, 33] ++ [10]) ∧
      uart_tx st1.trace = uart_tx State.init.trace ++ (cstr [79, 75, 0, 33] ++ [10])) ∧
    (∃ st2, puts [104, 105, 0] State.init = .ok (1, st2) ∧
      uart_tx st2.trace = uart_tx State.init.trace ++ [104, 105, 10]) :=
  puts_spec [79, 75, 0, 33] State.init (by decide) (by decide)

/-- C9. The function `putsnonl`: for every NUL-terminated string `s` (bytes below 256 with
a NUL among them) `putsnonl(s)` returns; the calls it makes are those of one `putchar` per
byte of `s` before its first NUL, in order, and nothing after them, so the bytes passed to
`uart_write` are exactly the text of `s`; for the empty string it makes no call at all. -/
theorem putsnonl_spec (s : List Nat) (st : State) (hs : 0 ∈ s) (hb : ∀ ch ∈ s, ch < 256) :
    (∃ st1, putsnonl s st = .ok st1 ∧
      st1.trace = st.trace ++ put_events st.write_hook (cstr s) ∧
      uart_tx st1.trace = uart_tx st.trace ++ cstr s) ∧
    (∀ rest, putsnonl (0 :: rest) st = .ok st) := by
  constructor
  · refine ⟨_, putsnonl_eq s st hs hb, rfl, ?_⟩
    simp only [uart_tx_append, uart_tx_put_events]
  · intro rest
    rw [putsnonl, if_neg (by simp)]

theorem putsnonl_spec_witness :
    (∃ st1, putsnonl [79, 75, 0, 33] State.init = .ok st1 ∧
      st1.trace = State.init.trace ++ put_events State.init.write_hook (cstr [79, 75, 0, 33]) ∧
      uart_tx st1.trace = uart_tx State.init.trace ++ cstr [79, 75, 0, 33]) ∧
    (∀ rest, putsnonl (0 :: rest) State.init = .ok State.init) :=
  putsnonl_spec [79, 75, 0, 33] State.init (by decide) (by decide)

/-- C10 as the claim states it fails: with no read hook, the read-nonblock hook registered
and reporting data, and the UART empty, `readchar_nonblock` returns `1` although the two
fallback hooks are not both registered. -/
theorem readchar_nonblock_both_hooks_fails :
    ¬ ((readchar_nonblock hookOnlyEnv nonblockOnlyState).1 ≠ 0 ↔
      (hookOnlyEnv.uart_read_nonblock nonblockOnlyState.trace = true ∨
        (nonblockOnlyState.read_hook ≠ 0 ∧ nonblockOnlyState.read_nonblock_hook ≠ 0 ∧
          hookOnlyEnv.read_nonblock_hook nonblockOnlyState.read_nonblock_hook
            (nonblockOnlyState.trace ++
              [Event.uart_read_nonblock
                (hookOnlyEnv.uart_read_nonblock nonblockOnlyState.trace)]) = true))) := by
  decide

/-- C10, amended. For every environment and console state, `readchar_nonblock()` returns
true (non-zero) if and only if the UART reports a byte available, or the read-nonblock hook
is registered and, asked after the UART poll, reports data available; whether the read hook
is registered plays no part. -/
theorem readchar_nonblock_iff (env : Env) (st : State) :
    (readchar_nonblock env st).1 ≠ 0 ↔
      (env.uart_read_nonblock st.trace = true ∨
        (st.read_nonblock_hook ≠ 0 ∧
          env.read_nonblock_hook st.read_nonblock_hook
            (st.trace ++ [Event.uart_read_nonblock (env.uart_read_nonblock st.trace)])
              = true)) := by
  unfold readchar_nonblock State.log
  cases ha : env.uart_read_nonblock st.trace
  · by_cases hn : st.read_nonblock_hook = 0
    · simp [hn]
    · cases hb : env.read_nonblock_hook st.read_nonblock_hook
          (st.trace ++ [Event.uart_read_nonblock false])
      · simp [hn, hb]
      · simp [hn, hb]
  · simp

/-! ## The polling loop of `readchar` -/

theorem readchar_iter_uart (env : Env) (st : State)
    (ha : env.uart_read_nonblock st.trace = true) :
    readchar_iter env st =
      (⟨st.write_hook, st.read_hook, st.read_nonblock_hook,
        st.trace ++ [Event.uart_read_nonblock true,
          Event.uart_read (env.uart_read (st.trace ++ [Event.uart_read_nonblock true]))]⟩,
        some (.ok (env.uart_read (st.trace ++ [Event.uart_read_nonblock true])))) := by
  unfold readchar_iter State.log
  simp [ha]

theorem readchar_iter_idle (env : Env) (st : State)
    (ha : env.uart_read_nonblock st.trace = false) (hn : st.read_nonblock_hook = 0) :
    readchar_iter env st =
      (⟨st.write_hook, st.read_hook, st.read_nonblock_hook,
        st.trace ++ [Event.uart_read_nonblock false]⟩, none) := by
  unfold readchar_iter State.log
  simp [ha, hn]

theorem readchar_iter_hook_false (env : Env) (st : State)
    (ha : env.uart_read_nonblock st.trace = false) (hn : st.read_nonblock_hook ≠ 0)
    (hb : env.read_nonblock_hook st.read_nonblock_hook
      (st.trace ++ [Event.uart_read_nonblock false]) = false) :
    readchar_iter env st =
      (⟨st.write_hook, st.read_hook, st.read_nonblock_hook,
        st.trace ++ [Event.uart_read_nonblock false,
          Event.read_nonblock_hook st.read_nonblock_hook false]⟩, none) := by
  unfold readchar_iter State.log
  simp [ha, hn, hb]

theorem readchar_iter_null (env : Env) (st : State)
    (ha : env.uart_read_nonblock st.trace = false) (hn : st.read_nonblock_hook ≠ 0)
    (hb : env.read_nonblock_hook st.read_nonblock_hook
      (st.trace ++ [Event.uart_read_nonblock false]) = true)
    (hr : st.read_hook = 0) :
    readchar_iter env st =
      (⟨st.write_hook, st.read_hook, st.read_nonblock_hook,
        st.trace ++ [Event.uart_read_nonblock false,
          Event.read_nonblock_hook st.read_nonblock_hook true]⟩,
        some (.error .nullCall)) := by
  unfold readchar_iter State.log
  simp [ha, hn, hb, hr]

theorem readchar_iter_hook (env : Env) (st : State)
    (ha : env.uart_read_nonblock st.trace = false) (hn : st.read_nonblock_hook ≠ 0)
    (hb : env.read_nonblock_hook st.read_nonblock_hook
      (st.trace ++ [Event.uart_read_nonblock false]) = true)
    (hr : st.read_hook ≠ 0) :
    readchar_iter env st =
      (⟨st.write_hook, st.read_hook, st.read_nonblock_hook,
        st.trace ++ [Event.uart_read_nonblock false,
          Event.read_nonblock_hook st.read_nonblock_hook true,
          Event.read_hook st.read_hook
            (env.read_hook st.read_hook (st.trace ++ [Event.uart_read_nonblock false,
              Event.read_nonblock_hook st.read_nonblock_hook true]))]⟩,
        some (.ok (env.read_hook st.read_hook (st.trace ++ [Event.uart_read_nonblock false,
              Event.read_nonblock_hook st.read_nonblock_hook true])))) := by
  unfold readchar_iter State.log
  simp [ha, hn, hb, hr]

/-- The loop of `readchar` is its body repeated: what `readchar` does with one more unit
of fuel, told from one pass through the body. -/
theorem readchar_succ (env : Env) (fuel : Nat) (st : State) :
    readchar env (fuel + 1) st =
      match readchar_iter env st with
      | (st1, none) => readchar env fuel st1
      | (st1, some (.ok c)) => .ok (c, st1)
      | (_, some (.error e)) => .error e := by
  rw [readchar]
  unfold readchar_iter
  simp only []
  split_ifs <;> rfl

/-- The two views of the loop agree: `readchar` is `readchar_run` with the state dropped
where no byte is returned. -/
theorem readchar_eq_run (env : Env) : ∀ (fuel : Nat) (st : State),
    readchar env fuel st =
      match readchar_run env fuel st with
      | (st1, .ok c) => .ok (c, st1)
      | (_, .error e) => .error e := by
  intro fuel
  induction fuel with
  | zero => intro st; rfl
  | succ fuel ih =>
    intro st
    rw [readchar_succ, readchar_run]
    rcases h : readchar_iter env st with ⟨st1, _ | r⟩
    · simp only []
      exact ih st1
    · cases r <;> rfl

theorem replicate_shift (tr : List Event) (x : Event) (j : Nat) :
    (tr ++ [x]) ++ List.replicate j x = tr ++ List.replicate (j + 1) x := by
  rw [List.append_assoc, List.replicate_succ]
  rfl

/-- With no read-nonblock hook the loop only polls the UART: when the UART first reports a
byte at its poll number `k` and the fuel reaches that far, `readchar` returns the byte
`uart_read` hands over, after `k` polls answered false and one answered true. -/
theorem readchar_run_uart_only (env : Env) : ∀ (k fuel : Nat) (st : State),
    st.read_nonblock_hook = 0 →
    (∀ j, j < k → env.uart_read_nonblock
      (st.trace ++ List.replicate j (Event.uart_read_nonblock false)) = false) →
    env.uart_read_nonblock
      (st.trace ++ List.replicate k (Event.uart_read_nonblock false)) = true →
    k < fuel →
    readchar_run env fuel st =
      (⟨st.write_hook, st.read_hook, st.read_nonblock_hook,
        st.trace ++ List.replicate k (Event.uart_read_nonblock false) ++
          [Event.uart_read_nonblock true,
            Event.uart_read (env.uart_read (st.trace ++
              List.replicate k (Event.uart_read_nonblock false) ++
                [Event.uart_read_nonblock true]))]⟩,
        .ok (env.uart_read (st.trace ++
              List.replicate k (Event.uart_read_nonblock false) ++
                [Event.uart_read_nonblock true]))) := by
  intro k
  induction k with
  | zero =>
    intro fuel st hn _ ha hf
    obtain ⟨f, rfl⟩ : ∃ f, fuel = f + 1 := ⟨fuel - 1, by omega⟩
    simp only [List.replicate_zero, List.append_nil] at ha ⊢
    rw [readchar_run, readchar_iter_uart env st ha]
  | succ k ih =>
    intro fuel st hn hidle ha hf
    obtain ⟨f, rfl⟩ : ∃ f, fuel = f + 1 := ⟨fuel - 1, by omega⟩
    have h0 : env.uart_read_nonblock st.trace = false := by
      have := hidle 0 (by omega)
      simpa using this
    rw [readchar_run, readchar_iter_idle env st h0 hn]
    simp only []
    rw [ih f ⟨st.write_hook, st.read_hook, st.read_nonblock_hook,
        st.trace ++ [Event.uart_read_nonblock false]⟩ hn
      (fun j hj => by
        show env.uart_read_nonblock ((st.trace ++ [Event.uart_read_nonblock false]) ++
          List.replicate j (Event.uart_read_nonblock false)) = false
        rw [replicate_shift]; exact hidle (j + 1) (by omega))
      (by
        show env.uart_read_nonblock ((st.trace ++ [Event.uart_read_nonblock false]) ++
          List.replicate k (Event.uart_read_nonblock false)) = true
        rw [replicate_shift]; exact ha)
      (by omega)]
    simp only [replicate_shift]

/-- With no read-nonblock hook, whatever the fuel, the loop has made `k` UART polls
answered false and is either still polling or has returned the byte of `uart_read`. -/
theorem readchar_run_no_nonblock (env : Env) : ∀ (fuel : Nat) (st : State),
    st.read_nonblock_hook = 0 →
    ∃ k, k ≤ fuel ∧
      (readchar_run env fuel st =
        (⟨st.write_hook, st.read_hook, st.read_nonblock_hook,
          st.trace ++ List.replicate k (Event.uart_read_nonblock false)⟩,
          .error .outOfFuel) ∨
       ∃ c, readchar_run env fuel st =
        (⟨st.write_hook, st.read_hook, st.read_nonblock_hook,
          st.trace ++ List.replicate k (Event.uart_read_nonblock false) ++
            [Event.uart_read_nonblock true, Event.uart_read c]⟩, .ok c)) := by
  intro fuel
  induction fuel with
  | zero =>
    intro st _
    exact ⟨0, le_refl 0, Or.inl (by simp [readchar_run])⟩
  | succ fuel ih =>
    intro st hn
    cases ha : env.uart_read_nonblock st.trace
    · obtain ⟨k, hk, h⟩ := ih ⟨st.write_hook, st.read_hook, st.read_nonblock_hook,
        st.trace ++ [Event.uart_read_nonblock false]⟩ hn
      refine ⟨k + 1, by omega, ?_⟩
      rw [readchar_run, readchar_iter_idle env st ha hn]
      simp only [replicate_shift] at h
      exact h
    · refine ⟨0, by omega, Or.inr
        ⟨env.uart_read (st.trace ++ [Event.uart_read_nonblock true]), ?_⟩⟩
      rw [readchar_run, readchar_iter_uart env st ha]
      simp

theorem idle_polls_no_fallback (k : Nat) :
    ∀ e ∈ List.replicate k (Event.uart_read_nonblock false), isFallbackCall e = false := by
  intro e he
  rw [List.eq_of_mem_replicate he]
  rfl

/-- C11 as the claim states it fails: with only the read-nonblock hook registered (no read
hook), a UART that has a byte at the second poll and a hook that reports no data,
`readchar` returns the UART byte after having called the read-nonblock hook. -/
theorem readchar_partial_registration_fails :
    (nonblockOnlyState.read_hook = 0 ∧ nonblockOnlyState.read_nonblock_hook ≠ 0) ∧
    ∃ st1, readchar latePollEnv 2 nonblockOnlyState = .ok (65, st1) ∧
      st1.trace = [Event.uart_read_nonblock false, Event.read_nonblock_hook 4096 false,
        Event.uart_read_nonblock true, Event.uart_read 65] ∧
      ∃ e ∈ st1.trace, isFallbackCall e = true := by
  refine ⟨by decide, ⟨0, 0, 4096, [Event.uart_read_nonblock false,
    Event.read_nonblock_hook 4096 false, Event.uart_read_nonblock true, Event.uart_read 65]⟩,
    rfl, rfl, Event.read_nonblock_hook 4096 false, ?_, rfl⟩
  simp

/-- C11, amended. For every console state in which the read hook is registered and the
read-nonblock hook is null, `readchar()` never consults the fallback source: however far
the loop has got, the calls it has made are UART calls only; it never calls through a null
pointer; a byte it returns is the one its last call, `uart_read`, handed over; and it does
return once the UART reports a byte, at the poll number `k`, when the fuel reaches that far. -/
theorem readchar_without_nonblock_hook (env : Env) (fuel : Nat) (st : State)
    (hr : st.read_hook ≠ 0) (hn : st.read_nonblock_hook = 0) :
    (∃ new, (readchar_run env fuel st).1.trace = st.trace ++ new ∧
      ∀ e ∈ new, isFallbackCall e = false) ∧
    (∀ c st1, readchar env fuel st = .ok (c, st1) →
      ∃ pre, st1.trace = st.trace ++ pre ++ [Event.uart_read c] ∧
        ∀ e ∈ pre, isFallbackCall e = false) ∧
    readchar env fuel st ≠ .error .nullCall ∧
    (∀ k, k < fuel →
      (∀ j, j < k → env.uart_read_nonblock
        (st.trace ++ List.replicate j (Event.uart_read_nonblock false)) = false) →
      env.uart_read_nonblock
        (st.trace ++ List.replicate k (Event.uart_read_nonblock false)) = true →
      ∃ st1, readchar env fuel st =
        .ok (env.uart_read (st.trace ++ List.replicate k (Event.uart_read_nonblock false)
          ++ [Event.uart_read_nonblock true]), st1)) := by
  have _ := hr
  obtain ⟨k, _, h | ⟨c, h⟩⟩ := readchar_run_no_nonblock env fuel st hn
  · refine ⟨⟨_, by rw [h], idle_polls_no_fallback k⟩, ?_, ?_, ?_⟩
    · intro c st1 hc
      rw [readchar_eq_run, h] at hc
      cases hc
    · rw [readchar_eq_run, h]
      simp
    · intro k1 hk1 hidle ha
      rw [readchar_eq_run, readchar_run_uart_only env k1 fuel st hn hidle ha hk1]
      exact ⟨_, rfl⟩
  · refine ⟨⟨_, by rw [h, List.append_assoc], ?_⟩, ?_, ?_, ?_⟩
    · intro e he
      rcases List.mem_append.mp he with he | he
      · exact idle_polls_no_fallback k e he
      · simp only [List.mem_cons, List.mem_singleton, List.not_mem_nil, or_false] at he
        rcases he with he | he <;> subst he <;> rfl
    · intro c1 st1 hc
      rw [readchar_eq_run, h] at hc
      simp only [Except.ok.injEq, Prod.mk.injEq] at hc
      obtain ⟨hc1, hst⟩ := hc
      subst hc1
      subst hst
      refine ⟨List.replicate k (Event.uart_read_nonblock false) ++
        [Event.uart_read_nonblock true], by simp, ?_⟩
      intro e he
      rcases List.mem_append.mp he with he | he
      · exact idle_polls_no_fallback k e he
      · simp only [List.mem_singleton] at he
        subst he; rfl
    · rw [readchar_eq_run, h]
      simp
    · intro k1 hk1 hidle ha
      rw [readchar_eq_run, readchar_run_uart_only env k1 fuel st hn hidle ha hk1]
      exact ⟨_, rfl⟩

theorem readchar_without_nonblock_hook_witness :
    ∃ st1, readchar latePollEnv 3 (console_set_read_hook 8192 0 State.init) =
      .ok (latePollEnv.uart_read ((console_set_read_hook 8192 0 State.init).trace ++
        List.replicate 2 (Event.uart_read_nonblock false) ++
          [Event.uart_read_nonblock true]), st1) :=
  (readchar_without_nonblock_hook latePollEnv 3 (console_set_read_hook 8192 0 State.init)
    (by decide) (by decide)).2.2.2 2 (by decide)
    (fun j hj => by
      have hj2 : j = 0 ∨ j = 1 := by omega
      rcases hj2 with h | h <;> subst h <;> rfl)
    rfl

/-- C13. UART priority in `readchar`: every pass through the loop body starts with the
poll of the UART; when that poll reports a byte, the pass calls `uart_read` next and
nothing else, and `readchar` returns the byte `uart_read` handed over, whatever the hooks
registered and whatever the fallback source would have reported.  Every iteration of
`readchar` is such a pass. -/
theorem readchar_uart_priority (env : Env) (st : State) :
    (∃ rest, (readchar_iter env st).1.trace =
      st.trace ++ Event.uart_read_nonblock (env.uart_read_nonblock st.trace) :: rest) ∧
    (env.uart_read_nonblock st.trace = true →
      readchar_iter env st =
        (⟨st.write_hook, st.read_hook, st.read_nonblock_hook,
          st.trace ++ [Event.uart_read_nonblock true,
            Event.uart_read (env.uart_read (st.trace ++ [Event.uart_read_nonblock true]))]⟩,
          some (.ok (env.uart_read (st.trace ++ [Event.uart_read_nonblock true])))) ∧
      ∀ fuel, readchar env (fuel + 1) st =
        .ok (env.uart_read (st.trace ++ [Event.uart_read_nonblock true]),
          ⟨st.write_hook, st.read_hook, st.read_nonblock_hook,
            st.trace ++ [Event.uart_read_nonblock true,
              Event.uart_read
                (env.uart_read (st.trace ++ [Event.uart_read_nonblock true]))]⟩)) ∧
    (∀ fuel, readchar env (fuel + 1) st =
      match readchar_iter env st with
      | (st1, none) => readchar env fuel st1
      | (st1, some (.ok c)) => .ok (c, st1)
      | (_, some (.error e)) => .error e) := by
  refine ⟨?_, ?_, fun fuel => readchar_succ env fuel st⟩
  · cases ha : env.uart_read_nonblock st.trace
    · by_cases hn : st.read_nonblock_hook = 0
      · rw [readchar_iter_idle env st ha hn]
        exact ⟨[], rfl⟩
      · cases hb : env.read_nonblock_hook st.read_nonblock_hook
          (st.trace ++ [Event.uart_read_nonblock false])
        · rw [readchar_iter_hook_false env st ha hn hb]
          exact ⟨_, rfl⟩
        · by_cases hr : st.read_hook = 0
          · rw [readchar_iter_null env st ha hn hb hr]
            exact ⟨_, rfl⟩
          · rw [readchar_iter_hook env st ha hn hb hr]
            exact ⟨_, rfl⟩
    · rw [readchar_iter_uart env st ha]
      exact ⟨_, rfl⟩
  · intro ha
    refine ⟨readchar_iter_uart env st ha, fun fuel => ?_⟩
    rw [readchar_succ, readchar_iter_uart env st ha]

/-! ## Traces of whole executions -/

theorem guardedFrom_append : ∀ (a b : List Event) (q : Option Event),
    guardedFrom q a = true → (∀ q1, guardedFrom q1 b = true) →
      guardedFrom q (a ++ b) = true := by
  intro a
  induction a with
  | nil => intro b q _ hb; exact hb q
  | cons e a ih =>
    intro b q ha hb
    simp only [guardedFrom, Bool.and_eq_true] at ha
    simp only [List.cons_append, guardedFrom, Bool.and_eq_true]
    exact ⟨ha.1, ih b (some e) ha.2 hb⟩

theorem guardedFrom_of_no_read : ∀ (a : List Event),
    (∀ h c, Event.read_hook h c ∉ a) → ∀ q, guardedFrom q a = true := by
  intro a
  induction a with
  | nil => intro _ q; rfl
  | cons e a ih =>
    intro hno q
    simp only [guardedFrom, Bool.and_eq_true]
    refine ⟨?_, ih (fun h c hm => hno h c (List.mem_cons_of_mem _ hm)) _⟩
    cases e with
    | read_hook h c => exact absurd (List.mem_cons_self _ _) (hno h c)
    | _ => rfl

theorem putchar_events_no_read (wh b h c : Nat) : Event.read_hook h c ∉ putchar_events wh b := by
  unfold putchar_events
  split_ifs <;> simp

theorem put_events_no_read (wh : Nat) : ∀ (bytes : List Nat) (h c : Nat),
    Event.read_hook h c ∉ put_events wh bytes := by
  intro bytes
  induction bytes with
  | nil => intro h c; simp [put_events]
  | cons b bytes ih =>
    intro h c hm
    rw [put_events, List.mem_append] at hm
    rcases hm with hm | hm
    · exact putchar_events_no_read wh b h c hm
    · exact ih h c hm

/-- What one pass through the body of `readchar` adds to the trace: read-hook calls are
paired, and every hook call goes through the address registered. -/
theorem readchar_iter_events (env : Env) (st : State) :
    ∃ new, (readchar_iter env st).1 =
        ⟨st.write_hook, st.read_hook, st.read_nonblock_hook, st.trace ++ new⟩ ∧
      (∀ q, guardedFrom q new = true) ∧
      (∀ h r, Event.read_nonblock_hook h r ∈ new → h = st.read_nonblock_hook) ∧
      (∀ h c, Event.read_hook h c ∈ new → h = st.read_hook) := by
  cases ha : env.uart_read_nonblock st.trace
  · by_cases hn : st.read_nonblock_hook = 0
    · rw [readchar_iter_idle env st ha hn]
      exact ⟨_, rfl, fun q => rfl, by simp, by simp⟩
    · cases hb : env.read_nonblock_hook st.read_nonblock_hook
        (st.trace ++ [Event.uart_read_nonblock false])
      · rw [readchar_iter_hook_false env st ha hn hb]
        exact ⟨_, rfl, fun q => rfl, by simp, by simp⟩
      · by_cases hr : st.read_hook = 0
        · rw [readchar_iter_null env st ha hn hb hr]
          exact ⟨_, rfl, fun q => rfl, by simp, by simp⟩
        · rw [readchar_iter_hook env st ha hn hb hr]
          refine ⟨_, rfl, fun q => ?_, by simp, by simp⟩
          simp [guardedFrom, okAfter, hn]
  · rw [readchar_iter_uart env st ha]
    exact ⟨_, rfl, fun q => rfl, by simp, by simp⟩

/-- What `readchar` has added to the trace, however far its loop has got. -/
theorem readchar_run_events (env : Env) : ∀ (fuel : Nat) (st : State),
    ∃ new, (readchar_run env fuel st).1 =
        ⟨st.write_hook, st.read_hook, st.read_nonblock_hook, st.trace ++ new⟩ ∧
      (∀ q, guardedFrom q new = true) ∧
      (∀ h r, Event.read_nonblock_hook h r ∈ new → h = st.read_nonblock_hook) ∧
      (∀ h c, Event.read_hook h c ∈ new → h = st.read_hook) := by
  intro fuel
  induction fuel with
  | zero =>
    intro st
    exact ⟨[], by simp [readchar_run], fun q => rfl, by simp, by simp⟩
  | succ fuel ih =>
    intro st
    obtain ⟨new1, h1, g1, n1, r1⟩ := readchar_iter_events env st
    rw [readchar_run]
    rcases hit : readchar_iter env st with ⟨st1, _ | r⟩
    · rw [hit] at h1
      simp only at h1
      subst h1
      obtain ⟨new2, h2, g2, n2, r2⟩ := ih
        ⟨st.write_hook, st.read_hook, st.read_nonblock_hook, st.trace ++ new1⟩
      refine ⟨new1 ++ new2, ?_, ?_, ?_, ?_⟩
      · simp only []
        rw [h2, List.append_assoc]
      · intro q
        exact guardedFrom_append new1 new2 q (g1 q) g2
      · intro h r hm
        rcases List.mem_append.mp hm with hm | hm
        · exact n1 h r hm
        · exact n2 h r hm
      · intro h c hm
        rcases List.mem_append.mp hm with hm | hm
        · exact r1 h c hm
        · exact r2 h c hm
    · rw [hit] at h1
      simp only at h1
      exact ⟨new1, h1, g1, n1, r1⟩

/-- What `readchar_nonblock` adds to the trace: the UART poll and, when that answered
false and a read-nonblock hook is registered, one call through it. -/
theorem readchar_nonblock_events (env : Env) (st : State) :
    ∃ new, (readchar_nonblock env st).2 =
        ⟨st.write_hook, st.read_hook, st.read_nonblock_hook, st.trace ++ new⟩ ∧
      ∀ e ∈ new, (∃ r, e = Event.uart_read_nonblock r) ∨
        (∃ r, e = Event.read_nonblock_hook st.read_nonblock_hook r) := by
  unfold readchar_nonblock State.log
  cases ha : env.uart_read_nonblock st.trace
  · by_cases hn : st.read_nonblock_hook = 0
    · exact ⟨[Event.uart_read_nonblock false], by simp [hn], by simp⟩
    · cases hb : env.read_nonblock_hook st.read_nonblock_hook
        (st.trace ++ [Event.uart_read_nonblock false])
      · exact ⟨[Event.uart_read_nonblock false,
          Event.read_nonblock_hook st.read_nonblock_hook false], by simp [hn, hb], by simp⟩
      · exact ⟨[Event.uart_read_nonblock false,
          Event.read_nonblock_hook st.read_nonblock_hook true], by simp [hn, hb], by simp⟩
  · exact ⟨[Event.uart_read_nonblock true], by simp, by simp⟩

/-- The bytes the run of `putchar` calls of `puts` and `putsnonl` passes on for the text
of `s`: each `char` promoted to `int` and handed on as a `char`. -/
theorem puts_bytes : ∀ (s : List Nat) (st : State), 0 ∈ s →
    puts s st = .ok (1, ⟨st.write_hook, st.read_hook, st.read_nonblock_hook,
      st.trace ++ put_events st.write_hook
        ((cstr s).map (fun (ch : Nat) => toChar (ch : Int)) ++ [10])⟩) := by
  intro s
  induction s with
  | nil => intro st hs; simp at hs
  | cons ch s ih =>
    intro st hs
    by_cases h0 : ch ≠ 0
    · have hs1 : 0 ∈ s := by
        rcases List.mem_cons.mp hs with h | h
        · exact absurd h.symm h0
        · exact h
      rw [puts, if_pos h0, putchar_eq, ih _ hs1, cstr_cons_ne s h0]
      simp [put_events]
    · have hz : ch = 0 := by simpa using h0
      subst hz
      rw [puts, if_neg h0, putchar_eq, cstr_cons_nul]
      simp [put_events, toChar]

theorem putsnonl_bytes : ∀ (s : List Nat) (st : State), 0 ∈ s →
    putsnonl s st = .ok ⟨st.write_hook, st.read_hook, st.read_nonblock_hook,
      st.trace ++ put_events st.write_hook ((cstr s).map (fun (ch : Nat) => toChar (ch : Int)))⟩ := by
  intro s
  induction s with
  | nil => intro st hs; simp at hs
  | cons ch s ih =>
    intro st hs
    by_cases h0 : ch ≠ 0
    · have hs1 : 0 ∈ s := by
        rcases List.mem_cons.mp hs with h | h
        · exact absurd h.symm h0
        · exact h
      rw [putsnonl, if_pos h0, putchar_eq, ih _ hs1, cstr_cons_ne s h0]
      simp [put_events]
    · have hz : ch = 0 := by simpa using h0
      subst hz
      rw [putsnonl, if_neg h0, cstr_cons_nul]
      simp [put_events]

theorem puts_no_nul : ∀ (s : List Nat) (st : State), 0 ∉ s →
    puts s st = .error .outOfBounds := by
  intro s
  induction s with
  | nil => intro st _; rfl
  | cons ch s ih =>
    intro st hs
    have h0 : ch ≠ 0 := fun h => hs (by simp [h])
    rw [puts, if_pos h0]
    exact ih _ (fun h => hs (List.mem_cons_of_mem _ h))

theorem putsnonl_no_nul : ∀ (s : List Nat) (st : State), 0 ∉ s →
    putsnonl s st = .error .outOfBounds := by
  intro s
  induction s with
  | nil => intro st _; rfl
  | cons ch s ih =>
    intro st hs
    have h0 : ch ≠ 0 := fun h => hs (by simp [h])
    rw [putsnonl, if_pos h0]
    exact ih _ (fun h => hs (List.mem_cons_of_mem _ h))

/-- What one call of an operation other than `readchar` adds to the trace holds no call of
the read hook. -/
theorem step_no_read (env : Env) (op : Op) (st st1 : State)
    (hop : ∀ fuel, op ≠ Op.readchar fuel) (h : step env op st = .ok st1) :
    ∃ new, st1.trace = st.trace ++ new ∧ ∀ a c, Event.read_hook a c ∉ new := by
  cases op with
  | set_write_hook a =>
    simp only [step, Except.ok.injEq] at h
    subst h
    exact ⟨[], by simp [console_set_write_hook], by simp⟩
  | set_read_hook r rn =>
    simp only [step, Except.ok.injEq] at h
    subst h
    exact ⟨[], by simp [console_set_read_hook], by simp⟩
  | putchar c =>
    simp only [step, Except.ok.injEq, putchar_eq] at h
    subst h
    exact ⟨_, rfl, putchar_events_no_read _ _⟩
  | readchar fuel => exact absurd rfl (hop fuel)
  | readchar_nonblock =>
    simp only [step, Except.ok.injEq] at h
    subst h
    obtain ⟨new, hnew, hev⟩ := readchar_nonblock_events env st
    refine ⟨new, by rw [hnew], ?_⟩
    intro a c hm
    rcases hev _ hm with ⟨r, hr⟩ | ⟨r, hr⟩ <;> cases hr
  | puts s =>
    by_cases hs : 0 ∈ s
    · simp only [step, puts_bytes s st hs, Except.ok.injEq] at h
      subst h
      exact ⟨_, rfl, put_events_no_read _ _⟩
    · simp [step, puts_no_nul s st hs] at h
  | putsnonl s =>
    by_cases hs : 0 ∈ s
    · simp only [step, putsnonl_bytes s st hs, Except.ok.injEq] at h
      subst h
      exact ⟨_, rfl, put_events_no_read _ _⟩
    · simp [step, putsnonl_no_nul s st hs] at h

/-- What one call of any operation adds to the trace has its read-hook calls paired. -/
theorem step_guarded (env : Env) (op : Op) (st st1 : State) (h : step env op st = .ok st1) :
    ∃ new, st1.trace = st.trace ++ new ∧ ∀ q, guardedFrom q new = true := by
  by_cases hop : ∀ fuel, op ≠ Op.readchar fuel
  · obtain ⟨new, h1, h2⟩ := step_no_read env op st st1 hop h
    exact ⟨new, h1, guardedFrom_of_no_read new h2⟩
  · simp only [ne_eq, not_forall, not_not] at hop
    obtain ⟨fuel, rfl⟩ := hop
    obtain ⟨new, h1, h2, -, -⟩ := readchar_run_events env fuel st
    simp only [step, readchar_eq_run] at h
    rcases hr : readchar_run env fuel st with ⟨st2, r⟩
    rw [hr] at h h1
    cases r with
    | error e => simp at h
    | ok c =>
      simp only [Except.ok.injEq] at h
      subst h
      simp only at h1
      exact ⟨new, by rw [h1], h2⟩

theorem run_guarded (env : Env) : ∀ (ops : List Op) (st st1 : State),
    run env ops st = .ok st1 →
    ∃ new, st1.trace = st.trace ++ new ∧ ∀ q, guardedFrom q new = true := by
  intro ops
  induction ops with
  | nil =>
    intro st st1 h
    simp only [run, Except.ok.injEq] at h
    subst h
    exact ⟨[], by simp, fun q => rfl⟩
  | cons op ops ih =>
    intro st st1 h
    rw [run] at h
    rcases hs : step env op st with e | st2
    · rw [hs] at h; simp at h
    · rw [hs] at h
      simp only at h
      obtain ⟨new1, h1, g1⟩ := step_guarded env op st st2 hs
      obtain ⟨new2, h2, g2⟩ := ih st2 st1 h
      refine ⟨new1 ++ new2, by rw [h2, h1, List.append_assoc], fun q => ?_⟩
      exact guardedFrom_append new1 new2 q (g1 q) g2

/-- The pairing test tells a lone read-hook call from a paired one, and a program that
registers both hooks does reach the read hook through `readchar`. -/
theorem guardedFrom_examples :
    guardedFrom none [Event.read_hook 8192 0] = false ∧
    guardedFrom none [Event.read_nonblock_hook 4096 false, Event.read_hook 8192 0] = false ∧
    guardedFrom none [Event.uart_read_nonblock false, Event.read_nonblock_hook 4096 true,
      Event.read_hook 8192 0] = true ∧
    run hookOnlyEnv [Op.set_read_hook 8192 4096, Op.readchar 1] State.init =
      .ok ⟨0, 8192, 4096, [Event.uart_read_nonblock false,
        Event.read_nonblock_hook 4096 true, Event.read_hook 8192 0]⟩ :=
  ⟨rfl, rfl, rfl, rfl⟩

/-- C12. The read hook is never called speculatively.  In every execution of a sequence of
console operations each call of the read hook comes right after a call through a
registered (non-null) read-nonblock hook that answered true, from any starting state and
so from start-up.  Inside `readchar`, however far its loop has got, every hook call goes
through the address registered at the time.  Every operation other than `readchar`
(`readchar_nonblock`, `putchar`, `puts`, `putsnonl`, the setters) makes no call of the read
hook. -/
theorem read_hook_never_speculative (env : Env) :
    (∀ ops st st1, run env ops st = .ok st1 →
      ∃ new, st1.trace = st.trace ++ new ∧ ∀ q, guardedFrom q new = true) ∧
    (∀ ops st1, run env ops State.init = .ok st1 → guardedFrom none st1.trace = true) ∧
    (∀ fuel st, ∃ new, (readchar_run env fuel st).1.trace = st.trace ++ new ∧
      (∀ q, guardedFrom q new = true) ∧
      (∀ h r, Event.read_nonblock_hook h r ∈ new → h = st.read_nonblock_hook) ∧
      (∀ h c, Event.read_hook h c ∈ new → h = st.read_hook)) ∧
    (∀ op st st1, (∀ fuel, op ≠ Op.readchar fuel) → step env op st = .ok st1 →
      ∃ new, st1.trace = st.trace ++ new ∧ ∀ a c, Event.read_hook a c ∉ new) := by
  refine ⟨run_guarded env, ?_, ?_, fun op st st1 hop h => step_no_read env op st st1 hop h⟩
  · intro ops st1 h
    obtain ⟨new, h1, h2⟩ := run_guarded env ops State.init st1 h
    rw [h1]
    simpa [State.init] using h2 none
  · intro fuel st
    obtain ⟨new, h1, h2, h3, h4⟩ := readchar_run_events env fuel st
    exact ⟨new, by rw [h1], h2, h3, h4⟩

theorem uart_consumed_append (tr1 tr2 : List Event) :
    uart_consumed (tr1 ++ tr2) = uart_consumed tr1 ++ uart_consumed tr2 := by
  induction tr1 with
  | nil => simp [uart_consumed]
  | cons e tr ih => cases e <;> simp [uart_consumed, ih]

theorem hook_tx_append (tr1 tr2 : List Event) :
    hook_tx (tr1 ++ tr2) = hook_tx tr1 ++ hook_tx tr2 := by
  induction tr1 with
  | nil => simp [hook_tx]
  | cons e tr ih => cases e <;> simp [hook_tx, ih]

/-- The three shapes of what `readchar_nonblock` adds to the trace. -/
theorem readchar_nonblock_cases (env : Env) (st : State) :
    ∃ new, (readchar_nonblock env st).2 =
        ⟨st.write_hook, st.read_hook, st.read_nonblock_hook, st.trace ++ new⟩ ∧
      ((∃ a, new = [Event.uart_read_nonblock a]) ∨
        (∃ b, new = [Event.uart_read_nonblock false,
          Event.read_nonblock_hook st.read_nonblock_hook b])) := by
  unfold readchar_nonblock State.log
  cases ha : env.uart_read_nonblock st.trace
  · by_cases hn : st.read_nonblock_hook = 0
    · exact ⟨[Event.uart_read_nonblock false], by simp [hn], Or.inl ⟨false, rfl⟩⟩
    · cases hb : env.read_nonblock_hook st.read_nonblock_hook
        (st.trace ++ [Event.uart_read_nonblock false])
      · exact ⟨[Event.uart_read_nonblock false,
          Event.read_nonblock_hook st.read_nonblock_hook false], by simp [hn, hb],
          Or.inr ⟨false, rfl⟩⟩
      · exact ⟨[Event.uart_read_nonblock false,
          Event.read_nonblock_hook st.read_nonblock_hook true], by simp [hn, hb],
          Or.inr ⟨true, rfl⟩⟩
  · exact ⟨[Event.uart_read_nonblock true], by simp, Or.inl ⟨true, rfl⟩⟩

/-- C14. The function `readchar_nonblock` consumes nothing: for every environment and
console state the calls it makes hold no `uart_read`, no call of the read hook, no
`uart_write` and no call of the write hook; the bytes taken out of the UART's pending input
and the bytes written to the UART are what they were before the call, and the three hook
variables are unchanged. -/
theorem readchar_nonblock_consumes_nothing (env : Env) (st : State) :
    (∃ new, (readchar_nonblock env st).2.trace = st.trace ++ new ∧
      (∀ c, Event.uart_read c ∉ new) ∧ (∀ h c, Event.read_hook h c ∉ new) ∧
      (∀ c, Event.uart_write c ∉ new) ∧ (∀ h c, Event.write_hook h c ∉ new)) ∧
    uart_consumed (readchar_nonblock env st).2.trace = uart_consumed st.trace ∧
    uart_tx (readchar_nonblock env st).2.trace = uart_tx st.trace ∧
    hook_tx (readchar_nonblock env st).2.trace = hook_tx st.trace ∧
    (readchar_nonblock env st).2.write_hook = st.write_hook ∧
    (readchar_nonblock env st).2.read_hook = st.read_hook ∧
    (readchar_nonblock env st).2.read_nonblock_hook = st.read_nonblock_hook := by
  obtain ⟨new, h, ⟨a, rfl⟩ | ⟨b, rfl⟩⟩ := readchar_nonblock_cases env st
  · rw [h]
    refine ⟨⟨_, rfl, by simp, by simp, by simp, by simp⟩, ?_, ?_, ?_, rfl, rfl, rfl⟩
    · simp [uart_consumed_append, uart_consumed]
    · simp [uart_tx_append, uart_tx]
    · simp [hook_tx_append, hook_tx]
  · rw [h]
    refine ⟨⟨_, rfl, by simp, by simp, by simp, by simp⟩, ?_, ?_, ?_, rfl, rfl, rfl⟩
    · simp [uart_consumed_append, uart_consumed]
    · simp [uart_tx_append, uart_tx]
    · simp [hook_tx_append, hook_tx]

/-- C15. The functions `printf` and `vprintf` are inert: for every format string and every
argument list both return `0` and leave the console state as it was, the hook variables
and the trace of calls included, so no byte is written to the UART and no hook is called. -/
theorem printf_vprintf_inert (fmt : List Nat) (args : List Int) (st : State) :
    printf fmt args st = (0, st) ∧ vprintf fmt args st = (0, st) ∧
    (printf fmt args st).2.trace = st.trace ∧ (vprintf fmt args st).2.trace = st.trace ∧
    uart_tx (printf fmt args st).2.trace = uart_tx st.trace ∧
    uart_tx (vprintf fmt args st).2.trace = uart_tx st.trace ∧
    hook_tx (printf fmt args st).2.trace = hook_tx st.trace ∧
    hook_tx (vprintf fmt args st).2.trace = hook_tx st.trace :=
  ⟨rfl, rfl, rfl, rfl, rfl, rfl, rfl, rfl⟩

theorem hook_tx_put_events {h : Nat} (hh : h ≠ 0) :
    ∀ bytes : List Nat, hook_tx (put_events h bytes) = bytes := by
  intro bytes
  induction bytes with
  | nil => rfl
  | cons c cs ih =>
    rw [put_events, hook_tx_append, ih]
    simp [putchar_events, hh, hook_tx]

/-- A sequence of output operations is one run of `putchar` calls over some bytes. -/
theorem run_output (env : Env) : ∀ (ops : List Op) (st : State),
    (∀ op ∈ ops, op.isOutput = true) →
    ∃ bytes, run env ops st = .ok ⟨st.write_hook, st.read_hook, st.read_nonblock_hook,
      st.trace ++ put_events st.write_hook bytes⟩ := by
  intro ops
  induction ops with
  | nil =>
    intro st _
    exact ⟨[], by simp [run, put_events]⟩
  | cons op ops ih =>
    intro st hops
    have hop : op.isOutput = true := hops op (by simp)
    have hrest : ∀ o ∈ ops, o.isOutput = true := fun o ho => hops o (by simp [ho])
    cases op with
    | putchar c =>
      obtain ⟨bytes, hb⟩ := ih ⟨st.write_hook, st.read_hook, st.read_nonblock_hook,
        st.trace ++ putchar_events st.write_hook (toChar c)⟩ hrest
      refine ⟨toChar c :: bytes, ?_⟩
      rw [run]
      simp only [step, putchar_eq]
      rw [hb]
      simp [put_events]
    | puts s =>
      have hs : 0 ∈ s := by simpa [Op.isOutput] using hop
      obtain ⟨bytes, hb⟩ := ih ⟨st.write_hook, st.read_hook, st.read_nonblock_hook,
        st.trace ++ put_events st.write_hook
          ((cstr s).map (fun (ch : Nat) => toChar (ch : Int)) ++ [10])⟩ hrest
      refine ⟨((cstr s).map (fun (ch : Nat) => toChar (ch : Int)) ++ [10]) ++ bytes, ?_⟩
      rw [run]
      simp only [step, puts_bytes s st hs]
      rw [hb]
      simp only [put_events_append, List.append_assoc]
    | putsnonl s =>
      have hs : 0 ∈ s := by simpa [Op.isOutput] using hop
      obtain ⟨bytes, hb⟩ := ih ⟨st.write_hook, st.read_hook, st.read_nonblock_hook,
        st.trace ++ put_events st.write_hook
          ((cstr s).map (fun (ch : Nat) => toChar (ch : Int)))⟩ hrest
      refine ⟨(cstr s).map (fun (ch : Nat) => toChar (ch : Int)) ++ bytes, ?_⟩
      rw [run]
      simp only [step, putsnonl_bytes s st hs]
      rw [hb]
      simp only [put_events_append, List.append_assoc]
    | set_write_hook a => simp [Op.isOutput] at hop
    | set_read_hook r rn => simp [Op.isOutput] at hop
    | readchar fuel => simp [Op.isOutput] at hop
    | readchar_nonblock => simp [Op.isOutput] at hop

/-- C20. The write hook mirrors the UART: for every sequence of `putchar`, `puts` and
`putsnonl` calls (on NUL-terminated strings) made with a write hook registered, the
sequence returns with the same hook registered, and the calls it made are, for some bytes
in order, one `uart_write` of each byte followed at once by the call of the hook with that
byte; so the bytes passed to the hook over those calls are the bytes written to the UART,
byte for byte and in the same order, each reaching the UART first. -/
theorem write_hook_mirrors_uart (env : Env) (ops : List Op) (st : State)
    (hops : ∀ op ∈ ops, op.isOutput = true) (hh : st.write_hook ≠ 0) :
    ∃ st1 bytes, run env ops st = .ok st1 ∧ st1.write_hook = st.write_hook ∧
      st1.trace = st.trace ++ put_events st.write_hook bytes ∧
      (∀ c, putchar_events st.write_hook c =
        [Event.uart_write c, Event.write_hook st.write_hook c]) ∧
      hook_tx (put_events st.write_hook bytes) = bytes ∧
      uart_tx (put_events st.write_hook bytes) = bytes ∧
      hook_tx st1.trace = hook_tx st.trace ++ bytes ∧
      uart_tx st1.trace = uart_tx st.trace ++ bytes := by
  obtain ⟨bytes, hb⟩ := run_output env ops st hops
  refine ⟨_, bytes, hb, rfl, rfl, ?_, hook_tx_put_events hh bytes,
    uart_tx_put_events _ bytes, ?_, ?_⟩
  · intro c
    simp [putchar_events, hh]
  · simp only [hook_tx_append, hook_tx_put_events hh]
  · simp only [uart_tx_append, uart_tx_put_events]

theorem write_hook_mirrors_uart_witness :
    ∃ st1 bytes,
      run hookOnlyEnv [Op.putchar 62, Op.puts [104, 105, 0], Op.putsnonl [111, 107, 0]]
        (console_set_write_hook 4096 State.init) = .ok st1 ∧
      st1.write_hook = (console_set_write_hook 4096 State.init).write_hook ∧
      st1.trace = (console_set_write_hook 4096 State.init).trace ++
        put_events (console_set_write_hook 4096 State.init).write_hook bytes ∧
      (∀ c, putchar_events (console_set_write_hook 4096 State.init).write_hook c =
        [Event.uart_write c,
          Event.write_hook (console_set_write_hook 4096 State.init).write_hook c]) ∧
      hook_tx (put_events (console_set_write_hook 4096 State.init).write_hook bytes) = bytes ∧
      uart_tx (put_events (console_set_write_hook 4096 State.init).write_hook bytes) = bytes ∧
      hook_tx st1.trace = hook_tx (console_set_write_hook 4096 State.init).trace ++ bytes ∧
      uart_tx st1.trace = uart_tx (console_set_write_hook 4096 State.init).trace ++ bytes :=
  write_hook_mirrors_uart hookOnlyEnv
    [Op.putchar 62, Op.puts [104, 105, 0], Op.putsnonl [111, 107, 0]]
    (console_set_write_hook 4096 State.init) (by decide) (by decide)

/-! ## The two loops of `ui2a` -/

/-- C16. Divisor found by the first loop of `ui2a`: for every 32-bit unsigned `num` and
every base of at least two the loop exits (given 32 units of fuel or more) with `d` a power
of `base` such that `num / d < base`; for `num >= 1` that `d` does not exceed `num` and no
power of `base` that does not exceed `num` is larger; for `num = 0` it is `1`. -/
theorem ui2a_scale_divisor (fuel num base : Nat) (hn : num < 4294967296) (hb : 2 ≤ base)
    (hf : 32 ≤ fuel) :
    ∃ k, ui2a_scale fuel num base 1 = .ok (base ^ k) ∧ num / base ^ k < base ∧
      (1 ≤ num → base ^ k ≤ num ∧ ∀ j, base ^ j ≤ num → base ^ j ≤ base ^ k) ∧
      (num = 0 → base ^ k = 1) := by
  refine ⟨Nat.log base num, ui2a_scale_eq hb hn hf, ?_, ?_, ?_⟩
  · rw [Nat.div_lt_iff_lt_mul (pow_pos (by omega) _), mul_comm, ← pow_succ]
    exact Nat.lt_pow_succ_log_self (by omega) num
  · intro h1
    refine ⟨Nat.pow_log_le_self base (by omega), fun j hj => ?_⟩
    exact Nat.pow_le_pow_right (by omega) (Nat.le_log_of_pow_le (by omega) hj)
  · intro h0
    subst h0
    simp

theorem ui2a_scale_divisor_witness :
    ∃ k, ui2a_scale 32 4294967295 10 1 = .ok (10 ^ k) ∧ 4294967295 / 10 ^ k < 10 ∧
      (1 ≤ 4294967295 → 10 ^ k ≤ 4294967295 ∧
        ∀ j, 10 ^ j ≤ 4294967295 → 10 ^ j ≤ 10 ^ k) ∧
      (4294967295 = 0 → 10 ^ k = 1) :=
  ui2a_scale_divisor 32 4294967295 10 (by decide) (by decide) (by decide)

theorem ui2a_scale_products_mem {num base : Nat} (hb : 2 ≤ base) (hn : num < 4294967296) :
    ∀ (fuel j : Nat), ∀ p ∈ ui2a_scale_products fuel num base (base ^ j),
      ∃ i, j < i ∧ base ^ i ≤ num ∧ p = base ^ i := by
  intro fuel
  induction fuel with
  | zero => intro j p hp; simp [ui2a_scale_products] at hp
  | succ fuel ih =>
    intro j p hp
    have hpos : 0 < base ^ j := pow_pos (by omega) j
    rw [ui2a_scale_products, if_neg (by omega)] at hp
    by_cases hge : num / base ^ j ≥ base
    · have hle : base ^ (j + 1) ≤ num := by
        rw [ge_iff_le, Nat.le_div_iff_mul_le hpos, mul_comm, ← pow_succ] at hge
        exact hge
      have hmod : base ^ j * base % 4294967296 = base ^ (j + 1) := by
        rw [← pow_succ]; exact Nat.mod_eq_of_lt (by omega)
      rw [if_pos hge, hmod, ← pow_succ] at hp
      rcases List.mem_cons.mp hp with hp | hp
      · exact ⟨j + 1, by omega, hle, hp⟩
      · obtain ⟨i, hi, hle2, hpi⟩ := ih (j + 1) p hp
        exact ⟨i, by omega, hle2, hpi⟩
    · rw [if_neg hge] at hp
      simp at hp

theorem ui2a_scale_products_aux {num base : Nat} (hb : 2 ≤ base) (hn : num < 4294967296) :
    ∀ (m j fuel : Nat), j + m = Nat.log base num → m < fuel →
      ui2a_scale_products fuel num base (base ^ j) =
        (List.range m).map (fun i => base ^ (j + i + 1)) := by
  intro m
  induction m with
  | zero =>
    intro j fuel hj hf
    obtain ⟨f, rfl⟩ : ∃ f, fuel = f + 1 := ⟨fuel - 1, by omega⟩
    have hj1 : j = Nat.log base num := by omega
    have hpos : 0 < base ^ j := pow_pos (by omega) j
    have hlt : num / base ^ j < base := by
      rw [Nat.div_lt_iff_lt_mul hpos, mul_comm, ← pow_succ, hj1]
      exact Nat.lt_pow_succ_log_self (by omega) num
    rw [ui2a_scale_products, if_neg (by omega), if_neg (by omega)]
    rfl
  | succ m ih =>
    intro j fuel hj hf
    obtain ⟨f, rfl⟩ : ∃ f, fuel = f + 1 := ⟨fuel - 1, by omega⟩
    have hpos : 0 < base ^ j := pow_pos (by omega) j
    have hnum : num ≠ 0 := by
      intro h0; subst h0; simp at hj
    have hle : base ^ (j + 1) ≤ num :=
      Nat.pow_le_of_le_log hnum (by omega)
    have hge : num / base ^ j ≥ base := by
      rw [ge_iff_le, Nat.le_div_iff_mul_le hpos, mul_comm, ← pow_succ]
      exact hle
    have hmod : base ^ j * base % 4294967296 = base ^ (j + 1) := by
      rw [← pow_succ]; exact Nat.mod_eq_of_lt (by omega)
    rw [ui2a_scale_products, if_neg (by omega), if_pos hge, hmod,
      ih (j + 1) f (by omega) (by omega), List.range_succ_eq_map, ← pow_succ]
    simp only [List.map_cons, List.map_map, add_zero, List.cons.injEq, true_and]
    apply List.map_congr_left
    intro i _
    simp only [Function.comp_apply]
    congr 1
    omega

/-- C17. No wraparound in the divisor of `ui2a`: for every 32-bit unsigned `num` and every
base of at least two, every product `d * base` the first loop forms, taken in the
integers, is a power of `base` that does not exceed `num` and so is below `2^32`; with
fuel for the loop to finish the products are `base^1, ..., base^(log num)` and the `d` the
loop ends with, kept in 32 bits, is the true power `base^(log num)`. -/
theorem ui2a_divisor_never_wraps (fuel num base : Nat) (hn : num < 4294967296)
    (hb : 2 ≤ base) :
    (∀ p ∈ ui2a_scale_products fuel num base 1,
      p < 4294967296 ∧ p ≤ num ∧ ∃ i, p = base ^ i) ∧
    (32 ≤ fuel →
      ui2a_scale_products fuel num base 1 =
        (List.range (Nat.log base num)).map (fun i => base ^ (i + 1)) ∧
      ui2a_scale fuel num base 1 = .ok (base ^ Nat.log base num)) := by
  constructor
  · intro p hp
    have hp0 : p ∈ ui2a_scale_products fuel num base (base ^ 0) := by simpa using hp
    obtain ⟨i, -, hle, hpi⟩ := ui2a_scale_products_mem hb hn fuel 0 p hp0
    subst hpi
    exact ⟨by omega, hle, i, rfl⟩
  · intro hf
    have hl := log_lt_32 hb hn
    have h := ui2a_scale_products_aux hb hn (Nat.log base num) 0 fuel (by omega) (by omega)
    refine ⟨?_, ui2a_scale_eq hb hn hf⟩
    simpa using h

theorem ui2a_divisor_never_wraps_witness :
    (∀ p ∈ ui2a_scale_products 32 4294967295 2 1,
      p < 4294967296 ∧ p ≤ 4294967295 ∧ ∃ i, p = 2 ^ i) ∧
    (32 ≤ 32 →
      ui2a_scale_products 32 4294967295 2 1 =
        (List.range (Nat.log 2 4294967295)).map (fun i => 2 ^ (i + 1)) ∧
      ui2a_scale 32 4294967295 2 1 = .ok (2 ^ Nat.log 2 4294967295)) :=
  ui2a_divisor_never_wraps 32 4294967295 2 (by decide) (by decide)

theorem ui2a_emit_base_one (uc : Int) : ∀ (f num d n : Nat) (bf : List Nat), d ≠ 0 →
    ui2a_emit f num 1 uc d n bf = .error .outOfFuel := by
  intro f
  induction f with
  | zero => intro num d n bf _; rfl
  | succ f ih =>
    intro num d n bf hd
    rw [ui2a_emit, if_neg hd]
    simp only [Nat.div_one, if_neg one_ne_zero]
    split_ifs
    · exact ih _ d _ _ hd
    · exact ih _ d _ _ hd

theorem ui2a_scale_base_one : ∀ (f num : Nat), 1 ≤ num →
    ui2a_scale f num 1 1 = .error .outOfFuel := by
  intro f
  induction f with
  | zero => intro num _; rfl
  | succ f ih =>
    intro num h1
    rw [ui2a_scale, if_neg one_ne_zero, if_pos (by simpa using h1)]
    exact ih num h1

theorem ui2a_base_one (uc : Int) : ∀ (f num : Nat), ui2a f num 1 uc = .error .outOfFuel := by
  intro f num
  unfold ui2a
  rcases Nat.eq_zero_or_pos num with h0 | hpos
  · subst h0
    cases f with
    | zero => rfl
    | succ f =>
      rw [ui2a_scale, if_neg one_ne_zero, if_neg (by simp)]
      simp only []
      rw [ui2a_emit_base_one uc (f + 1) 0 1 0 [] one_ne_zero]
  · rw [ui2a_scale_base_one f num hpos]

theorem ui2a_scale_base_zero (f num : Nat) :
    ui2a_scale (f + 2) num 0 1 = .error .divByZero := by
  rw [ui2a_scale, if_neg one_ne_zero, if_pos (Nat.zero_le _)]
  rw [ui2a_scale, if_pos (by simp)]

/-- C18. Termination and guarded division of `ui2a`: for every 32-bit unsigned `num` and
every base of at least two both loops finish within 33 evaluations of their condition,
the first with a non-zero `d`, and no division by zero occurs on the way.  For base 1 the
second loop never reaches `d = 0` from a non-zero `d`, so `ui2a` never returns; for base 0
the first loop sets `d` to zero and divides by it. -/
theorem ui2a_terminates (fuel num base : Nat) (uc : Int) (hn : num < 4294967296)
    (hb : 2 ≤ base) (hf : 33 ≤ fuel) :
    (∃ d bf, ui2a_scale fuel num base 1 = .ok d ∧ d ≠ 0 ∧
      ui2a_emit fuel num base uc d 0 [] = .ok bf ∧ ui2a fuel num base uc = .ok (bf ++ [0])) ∧
    (∀ f d n bf, d ≠ 0 → ui2a_emit f num 1 uc d n bf = .error .outOfFuel) ∧
    (∀ f, ui2a f num 1 uc = .error .outOfFuel) ∧
    (∀ f, ui2a_scale (f + 2) num 0 1 = .error .divByZero ∧
      ui2a (f + 2) num 0 uc = .error .divByZero) := by
  have hl := log_lt_32 hb hn
  refine ⟨⟨base ^ Nat.log base num, _, ui2a_scale_eq hb hn (by omega),
    (pow_pos (by omega) _).ne', ui2a_emit_first hb hn (by omega), ui2a_eq uc hb hn hf⟩,
    fun f d n bf hd => ui2a_emit_base_one uc f num d n bf hd,
    fun f => ui2a_base_one uc f num, fun f => ⟨ui2a_scale_base_zero f num, ?_⟩⟩
  unfold ui2a
  rw [ui2a_scale_base_zero]

theorem ui2a_terminates_witness :
    (∃ d bf, ui2a_scale 33 4294967295 2 1 = .ok d ∧ d ≠ 0 ∧
      ui2a_emit 33 4294967295 2 0 d 0 [] = .ok bf ∧
      ui2a 33 4294967295 2 0 = .ok (bf ++ [0])) ∧
    (∀ f d n bf, d ≠ 0 → ui2a_emit f 4294967295 1 0 d n bf = .error .outOfFuel) ∧
    (∀ f, ui2a f 4294967295 1 0 = .error .outOfFuel) ∧
    (∀ f, ui2a_scale (f + 2) 4294967295 0 1 = .error .divByZero ∧
      ui2a (f + 2) 4294967295 0 0 = .error .divByZero) :=
  ui2a_terminates 33 4294967295 2 0 (by decide) (by decide) (by decide)

/-! ## The signed round trip of `i2a` -/

theorem digitChar_ne_minus {x : Nat} (uc : Int) (hx : x < 36) :
    digitChar (toInt32 x) uc ≠ 45 := by
  rw [digitChar_small uc (by omega)]
  split_ifs <;> omega

theorem parseSigned_unsigned (b : Nat) (s : List Nat) (h : s.head? ≠ some 45) :
    parseSigned b s = (parseNumeral b s).map (fun (v : Nat) => (v : Int)) := by
  unfold parseSigned
  split
  · simp at h
  · rfl

theorem parseSigned_minus (b : Nat) (rest : List Nat) :
    parseSigned b (45 :: rest) = (parseNumeral b rest).map (fun (v : Nat) => -(v : Int)) := rfl

/-- The text of `i2a` read back as a signed numeral, for a base from 2 to 36. -/
theorem i2a_parse {fuel : Nat} {num : Int} {b : Nat} (hlo : -2147483648 ≤ num)
    (hhi : num < 2147483648) (hb : 2 ≤ b) (hb36 : b ≤ 36) (hf : 33 ≤ fuel) :
    ∃ buf, i2a fuel num b = .ok buf ∧ parseSigned b (cstr buf) = some num := by
  by_cases h0 : 0 ≤ num
  · have h1 : i2a fuel num b = ui2a fuel num.toNat b 0 := i2a_nonneg fuel b h0 hhi (by omega)
    have h2 := @ui2a_eq num.toNat b fuel 0 hb (by omega) hf
    refine ⟨_, h1.trans h2, ?_⟩
    · rw [ui2a_text 0 hb hb36, parseSigned_unsigned, ui2a_parse 0 hb hb36]
      · simp only [Option.map_some', Option.some.injEq]
        omega
      · rw [List.head?_map, places_head]
        simp only [Option.map_some', ne_eq, Option.some.injEq]
        have h2 : num.toNat / b ^ Nat.log b num.toNat < b :=
          places_log_lt hb _ (List.mem_of_mem_head? (places_head b _ num.toNat))
        exact digitChar_ne_minus 0 (by omega)
  · have hneg : num < 0 := by omega
    have ht := @ui2a_eq num.natAbs b fuel 0 hb (by omega) hf
    refine ⟨_, i2a_neg fuel b hneg hlo (by omega) ht, ?_⟩
    rw [cstr_cons_ne _ (by decide), ui2a_text 0 hb hb36, parseSigned_minus,
      ui2a_parse 0 hb hb36]
    simp only [Option.map_some', Option.some.injEq]
    omega

/-- C19. The function `i2a` on the most negative value: for `num = -2^31` the negation kept
in 32 bits leaves `num` unchanged and the conversion to unsigned passes `2^31` to `ui2a`,
so `i2a(-2^31, 10, buf)` writes `"-2147483648"`; and for every 32-bit signed `num` and
every base in {2, 8, 10, 16}, `i2a` returns and the text it wrote, read as an optionally
`'-'`-prefixed base-`b` numeral, is `num`. -/
theorem i2a_round_trip (fuel : Nat) (num : Int) (b : Nat) (hlo : -2147483648 ≤ num)
    (hhi : num < 2147483648) (hb : b = 2 ∨ b = 8 ∨ b = 10 ∨ b = 16) (hf : 33 ≤ fuel) :
    wrapInt32 (-(-2147483648)) = -2147483648 ∧
    toU32 (wrapInt32 (-(-2147483648))) = 2147483648 ∧
    i2a fuel (-2147483648) 10 = .ok [45, 50, 49, 52, 55, 52, 56, 51, 54, 52, 56, 0] ∧
    cstr [45, 50, 49, 52, 55, 52, 56, 51, 54, 52, 56, 0] =
      [45, 50, 49, 52, 55, 52, 56, 51, 54, 52, 56] ∧
    ∃ buf, i2a fuel num b = .ok buf ∧ parseSigned b (cstr buf) = some num := by
  refine ⟨by decide, by decide, ?_, by decide, i2a_parse hlo hhi (by omega) (by omega) hf⟩
  have ht : ui2a fuel (-2147483648 : Int).natAbs 10 0 =
      .ok [50, 49, 52, 55, 52, 56, 51, 54, 52, 56, 0] :=
    (ui2a_fuel_irrelevant 0 (by decide) (by decide) hf (le_refl 33)).trans rfl
  exact i2a_neg fuel 10 (by decide) (by decide) (by decide) ht

theorem i2a_round_trip_witness :
    wrapInt32 (-(-2147483648)) = -2147483648 ∧
    toU32 (wrapInt32 (-(-2147483648))) = 2147483648 ∧
    i2a 33 (-2147483648) 10 = .ok [45, 50, 49, 52, 55, 52, 56, 51, 54, 52, 56, 0] ∧
    cstr [45, 50, 49, 52, 55, 52, 56, 51, 54, 52, 56, 0] =
      [45, 50, 49, 52, 55, 52, 56, 51, 54, 52, 56] ∧
    ∃ buf, i2a 33 (-2147483648) (16 : Nat) = .ok buf ∧
      parseSigned 16 (cstr buf) = some (-2147483648) :=
  i2a_round_trip 33 (-2147483648) 16 (by decide) (by decide) (by decide) (by decide)

end Console
